import Mathlib

/-!
# Verification of the schema-validated JSON diff/patch engine

This file gives a shallow embedding of the repository's patch engine and
synchronized state holder, and settles the frozen claims about them.

Embedding notes.

* `JValue` models the JSON-representable documents handled by the engine
  (`src/lib/patch/json-patch.ts` works with arbitrary `T` constrained by a
  schema; at runtime the values are JSON trees).  JSON numbers are modelled
  as integers: no claim depends on fractional or floating-point arithmetic,
  only on value equality.
* JavaScript objects preserve key insertion order, but every observation the
  repository makes of a document (deep equality `toEqual`, schema validation,
  patch application) is insensitive to that order.  We therefore represent
  objects by association lists kept in strictly increasing key order
  (`canonB`), the canonical representative of a JS object modulo deep
  equality; `keyLt` is code-point lexicographic comparison.
* The wrapper class `JsonPatch` (src/lib/patch/json-patch.ts) and the holder
  `SyncState` are translated from the source.  The engines they delegate to —
  `compare`/`applyPatch` from the `fast-json-patch` package and `parse` from
  `zod` — are not part of the repository's sources; following the task of
  checking the specification, those are modelled from the spec (each such
  definition carries a doc comment starting `Modelled from the spec:`).
* Failures (thrown `ZodError` / `JsonPatchError` / `Error`) are modelled with
  `Except`; the mutable `_state` field of `SyncState` and the in-place
  mutation of the working copy inside `applyPatch` are modelled by explicit
  state passing.
-/

/-- A JSON document tree: the `Document` data model of the spec (§3) and the
runtime values handled by `JsonPatch<T>`/`SyncState<T>`.  Object fields are an
association list; see the header about canonical key order. -/
inductive JValue : Type
  | null
  | bool (b : Bool)
  | num (n : Int)
  | str (s : String)
  | arr (elems : List JValue)
  | obj (fields : List (String × JValue))

mutual

/-- Decidable (deep, type-sensitive) equality of documents: the deep-equality
notion used throughout the spec (`toEqual` in the repository's tests, and the
comparison of the `test` operation). -/
def jvalDecEq : (a b : JValue) → Decidable (a = b)
  | .null, .null => isTrue rfl
  | .null, .bool _ => isFalse (fun h => nomatch h)
  | .null, .num _ => isFalse (fun h => nomatch h)
  | .null, .str _ => isFalse (fun h => nomatch h)
  | .null, .arr _ => isFalse (fun h => nomatch h)
  | .null, .obj _ => isFalse (fun h => nomatch h)
  | .bool _, .null => isFalse (fun h => nomatch h)
  | .bool a, .bool b =>
    match decEq a b with
    | isTrue h => isTrue (h ▸ rfl)
    | isFalse h => isFalse (fun e => h (JValue.bool.inj e))
  | .bool _, .num _ => isFalse (fun h => nomatch h)
  | .bool _, .str _ => isFalse (fun h => nomatch h)
  | .bool _, .arr _ => isFalse (fun h => nomatch h)
  | .bool _, .obj _ => isFalse (fun h => nomatch h)
  | .num _, .null => isFalse (fun h => nomatch h)
  | .num _, .bool _ => isFalse (fun h => nomatch h)
  | .num a, .num b =>
    match decEq a b with
    | isTrue h => isTrue (h ▸ rfl)
    | isFalse h => isFalse (fun e => h (JValue.num.inj e))
  | .num _, .str _ => isFalse (fun h => nomatch h)
  | .num _, .arr _ => isFalse (fun h => nomatch h)
  | .num _, .obj _ => isFalse (fun h => nomatch h)
  | .str _, .null => isFalse (fun h => nomatch h)
  | .str _, .bool _ => isFalse (fun h => nomatch h)
  | .str _, .num _ => isFalse (fun h => nomatch h)
  | .str a, .str b =>
    match decEq a b with
    | isTrue h => isTrue (h ▸ rfl)
    | isFalse h => isFalse (fun e => h (JValue.str.inj e))
  | .str _, .arr _ => isFalse (fun h => nomatch h)
  | .str _, .obj _ => isFalse (fun h => nomatch h)
  | .arr _, .null => isFalse (fun h => nomatch h)
  | .arr _, .bool _ => isFalse (fun h => nomatch h)
  | .arr _, .num _ => isFalse (fun h => nomatch h)
  | .arr _, .str _ => isFalse (fun h => nomatch h)
  | .arr a, .arr b =>
    match jvalListDecEq a b with
    | isTrue h => isTrue (h ▸ rfl)
    | isFalse h => isFalse (fun e => h (JValue.arr.inj e))
  | .arr _, .obj _ => isFalse (fun h => nomatch h)
  | .obj _, .null => isFalse (fun h => nomatch h)
  | .obj _, .bool _ => isFalse (fun h => nomatch h)
  | .obj _, .num _ => isFalse (fun h => nomatch h)
  | .obj _, .str _ => isFalse (fun h => nomatch h)
  | .obj _, .arr _ => isFalse (fun h => nomatch h)
  | .obj a, .obj b =>
    match jvalFieldsDecEq a b with
    | isTrue h => isTrue (h ▸ rfl)
    | isFalse h => isFalse (fun e => h (JValue.obj.inj e))

/-- Componentwise decidable equality for array elements. -/
def jvalListDecEq : (a b : List JValue) → Decidable (a = b)
  | [], [] => isTrue rfl
  | [], _ :: _ => isFalse (fun h => nomatch h)
  | _ :: _, [] => isFalse (fun h => nomatch h)
  | x :: xs, y :: ys =>
    match jvalDecEq x y, jvalListDecEq xs ys with
    | isTrue h1, isTrue h2 => isTrue (by rw [h1, h2])
    | isFalse h1, _ => isFalse (fun e => h1 (List.cons.inj e).1)
    | _, isFalse h2 => isFalse (fun e => h2 (List.cons.inj e).2)

/-- Componentwise decidable equality for object field lists. -/
def jvalFieldsDecEq : (a b : List (String × JValue)) → Decidable (a = b)
  | [], [] => isTrue rfl
  | [], _ :: _ => isFalse (fun h => nomatch h)
  | _ :: _, [] => isFalse (fun h => nomatch h)
  | (k, v) :: xs, (l, w) :: ys =>
    match decEq k l, jvalDecEq v w, jvalFieldsDecEq xs ys with
    | isTrue h1, isTrue h2, isTrue h3 => isTrue (by rw [h1, h2, h3])
    | isFalse h1, _, _ =>
      isFalse (fun e => h1 (congrArg Prod.fst (List.cons.inj e).1))
    | _, isFalse h2, _ =>
      isFalse (fun e => h2 (congrArg Prod.snd (List.cons.inj e).1))
    | _, _, isFalse h3 => isFalse (fun e => h3 (List.cons.inj e).2)

end

instance : DecidableEq JValue := jvalDecEq

/-! ## Key order

Code-point lexicographic order on strings, used only to fix the canonical
representation of object field lists. -/

/-- Lexicographic strict order on character lists by code point. -/
def charsLt : List Char → List Char → Bool
  | [], [] => false
  | [], _ :: _ => true
  | _ :: _, [] => false
  | a :: as, b :: bs =>
    if a.toNat < b.toNat then true
    else if b.toNat < a.toNat then false
    else charsLt as bs

/-- Strict order on object keys. -/
def keyLt (a b : String) : Bool := charsLt a.data b.data

theorem charsLt_irrefl : ∀ as, charsLt as as = false
  | [] => rfl
  | a :: as => by simp [charsLt, charsLt_irrefl as]

theorem charsLt_asymm : ∀ as bs, charsLt as bs = true → charsLt bs as = false
  | [], [], h => by simp [charsLt] at h
  | [], _ :: _, _ => by simp [charsLt]
  | _ :: _, [], h => by simp [charsLt] at h
  | a :: as, b :: bs, h => by
    simp only [charsLt] at h ⊢
    by_cases h1 : a.toNat < b.toNat
    · have h2 : ¬ b.toNat < a.toNat := by omega
      simp [h1, h2]
    · by_cases h2 : b.toNat < a.toNat
      · simp [h1, h2] at h
      · simp only [if_neg h1, if_neg h2] at h ⊢
        exact charsLt_asymm as bs h

theorem charsLt_trans :
    ∀ as bs cs, charsLt as bs = true → charsLt bs cs = true → charsLt as cs = true
  | [], [], _, h1, _ => by simp [charsLt] at h1
  | [], _ :: _, [], _, h2 => by simp [charsLt] at h2
  | [], _ :: _, _ :: _, _, _ => by simp [charsLt]
  | _ :: _, [], _, h1, _ => by simp [charsLt] at h1
  | _ :: _, _ :: _, [], _, h2 => by simp [charsLt] at h2
  | a :: as, b :: bs, c :: cs, h1, h2 => by
    simp only [charsLt] at h1 h2 ⊢
    by_cases hab : a.toNat < b.toNat <;> by_cases hbc : b.toNat < c.toNat
    · have : a.toNat < c.toNat := by omega
      simp [this]
    · by_cases hcb : c.toNat < b.toNat
      · simp [hbc, hcb] at h2
      · have : a.toNat < c.toNat := by omega
        simp [this]
    · by_cases hba : b.toNat < a.toNat
      · simp [hab, hba] at h1
      · have : a.toNat < c.toNat := by omega
        simp [this]
    · by_cases hba : b.toNat < a.toNat
      · simp [hab, hba] at h1
      · by_cases hcb : c.toNat < b.toNat
        · simp [hbc, hcb] at h2
        · have hac : ¬ a.toNat < c.toNat := by omega
          have hca : ¬ c.toNat < a.toNat := by omega
          simp only [if_neg hab, if_neg hba] at h1
          simp only [if_neg hbc, if_neg hcb] at h2
          simp only [if_neg hac, if_neg hca]
          exact charsLt_trans as bs cs h1 h2

theorem charsLt_total :
    ∀ as bs, charsLt as bs = false → charsLt bs as = false → as = bs
  | [], [], _, _ => rfl
  | [], _ :: _, h1, _ => by simp [charsLt] at h1
  | _ :: _, [], _, h2 => by simp [charsLt] at h2
  | a :: as, b :: bs, h1, h2 => by
    simp only [charsLt] at h1 h2
    by_cases hab : a.toNat < b.toNat
    · simp [hab] at h1
    · by_cases hba : b.toNat < a.toNat
      · simp [hba] at h2
      · have hc : a = b := Char.ext (UInt32.ext (show a.toNat = b.toNat by omega))
        subst hc
        simp only [if_neg hab, if_neg hba] at h1 h2
        rw [charsLt_total as bs h1 h2]

theorem keyLt_irrefl (a : String) : keyLt a a = false := charsLt_irrefl _

theorem keyLt_asymm {a b : String} (h : keyLt a b = true) : keyLt b a = false :=
  charsLt_asymm _ _ h

theorem keyLt_trans {a b c : String} (h1 : keyLt a b = true) (h2 : keyLt b c = true) :
    keyLt a c = true := charsLt_trans _ _ _ h1 h2

theorem keyLt_total {a b : String} (h1 : keyLt a b = false) (h2 : keyLt b a = false) :
    a = b := by
  have h := charsLt_total _ _ h1 h2
  cases a
  cases b
  exact congrArg String.mk h

/-! ## Decimal array-index tokens

`fast-json-patch` renders array indices as decimal strings when diffing and
parses the index token back when applying.  Modelled from the spec (§3 Path:
"each token either an object key or an array index"). -/

/-- The character for a single decimal digit. -/
def digitChar (n : Nat) : Char := Char.ofNat (48 + n)

/-- The numeric value of a digit character. -/
def digitVal (c : Char) : Nat := c.toNat - 48

/-- Big-endian decimal digits of `n`; the fuel argument dominates the number
of divisions by ten. -/
def natToCharsAux : Nat → Nat → List Char
  | 0, _ => []
  | fuel + 1, n =>
    if n < 10 then [digitChar n]
    else natToCharsAux fuel (n / 10) ++ [digitChar (n % 10)]

/-- Decimal rendering of an array index. -/
def natToString (n : Nat) : String := ⟨natToCharsAux (n + 1) n⟩

/-- Modelled from the spec: the array-index interpretation of a reference
token (`fast-json-patch` accepts a token of decimal digits as an index).
Returns `none` for `"-"` and for any non-numeric token. -/
def parseIndex (s : String) : Option Nat :=
  if s.data.isEmpty then none
  else if s.data.all Char.isDigit then
    some (s.data.foldl (fun a c => 10 * a + digitVal c) 0)
  else none

theorem digitChar_isDigit {n : Nat} (h : n < 10) : (digitChar n).isDigit = true := by
  interval_cases n <;> decide

theorem digitVal_digitChar {n : Nat} (h : n < 10) : digitVal (digitChar n) = n := by
  interval_cases n <;> decide


theorem natToCharsAux_spec :
    ∀ fuel n, n ≤ fuel →
      natToCharsAux (fuel + 1) n ≠ [] ∧
      (natToCharsAux (fuel + 1) n).all Char.isDigit = true ∧
      (natToCharsAux (fuel + 1) n).foldl (fun a c => 10 * a + digitVal c) 0 = n := by
  intro fuel
  induction fuel using Nat.strong_induction_on with
  | _ fuel ih =>
    intro n hn
    by_cases h10 : n < 10
    · refine ⟨by simp [natToCharsAux, h10], ?_, ?_⟩
      · simp [natToCharsAux, h10, digitChar_isDigit h10]
      · simp [natToCharsAux, h10, digitVal_digitChar h10]
    · rcases fuel with _ | fuel'
      · omega
      · have hdiv : n / 10 ≤ fuel' := by
          have := Nat.div_lt_self (by omega : 0 < n) (by omega : 1 < 10)
          omega
        obtain ⟨hne, hdig, hval⟩ := ih fuel' (by omega) (n / 10) hdiv
        have hstep : natToCharsAux (fuel' + 1 + 1) n =
            natToCharsAux (fuel' + 1) (n / 10) ++ [digitChar (n % 10)] := by
          rw [natToCharsAux, if_neg h10]
        have hm : (n % 10) < 10 := Nat.mod_lt _ (by omega)
        refine ⟨?_, ?_, ?_⟩
        · rw [hstep]; simp
        · rw [hstep]
          simp [hdig, digitChar_isDigit hm]
        · rw [hstep]
          rw [List.foldl_append, hval]
          simp only [List.foldl_cons, List.foldl_nil, digitVal_digitChar hm]
          omega

/-- Rendering an index and parsing it back is the identity. -/
theorem parseIndex_natToString (n : Nat) : parseIndex (natToString n) = some n := by
  obtain ⟨hne, hdig, hval⟩ := natToCharsAux_spec n n le_rfl
  simp only [parseIndex, natToString]
  rw [if_neg (by simpa [List.isEmpty_iff] using hne), if_pos (by simpa using hdig)]
  simpa using hval

/-! ## JSON-Pointer paths

Modelled from the spec (§3 Path): `/`-delimited reference tokens, with `~`
escaped as `~0` and `/` escaped as `~1`, decoded token-wise. -/

/-- Escape one reference token (`~` ↦ `~0`, `/` ↦ `~1`). -/
def escapeChars : List Char → List Char
  | [] => []
  | c :: cs =>
    if c = '~' then '~' :: '0' :: escapeChars cs
    else if c = '/' then '~' :: '1' :: escapeChars cs
    else c :: escapeChars cs

/-- Unescape one reference token (`~0` ↦ `~`, `~1` ↦ `/`), token-wise so that
`~01` decodes to `~1` and not to `/`. -/
def unescapeChars : List Char → List Char
  | [] => []
  | [c] => [c]
  | a :: b :: cs =>
    if a = '~' ∧ b = '0' then '~' :: unescapeChars cs
    else if a = '~' ∧ b = '1' then '/' :: unescapeChars cs
    else a :: unescapeChars (b :: cs)

theorem escapeChars_ne_nil {c : Char} {cs : List Char} : escapeChars (c :: cs) ≠ [] := by
  simp only [escapeChars]
  by_cases h1 : c = '~' <;> by_cases h2 : c = '/' <;> simp [h1, h2]

theorem unescape_escape : ∀ cs, unescapeChars (escapeChars cs) = cs
  | [] => rfl
  | c :: cs => by
    by_cases h1 : c = '~'
    · subst h1
      rw [show escapeChars ('~' :: cs) = '~' :: '0' :: escapeChars cs from by
        simp [escapeChars]]
      rw [show unescapeChars ('~' :: '0' :: escapeChars cs) =
          '~' :: unescapeChars (escapeChars cs) from by simp [unescapeChars]]
      rw [unescape_escape cs]
    · by_cases h2 : c = '/'
      · subst h2
        rw [show escapeChars ('/' :: cs) = '~' :: '1' :: escapeChars cs from by
          simp [escapeChars]]
        rw [show unescapeChars ('~' :: '1' :: escapeChars cs) =
            '/' :: unescapeChars (escapeChars cs) from by simp [unescapeChars]]
        rw [unescape_escape cs]
      · rw [show escapeChars (c :: cs) = c :: escapeChars cs from by
          simp [escapeChars, h1, h2]]
        cases hcs : escapeChars cs with
        | nil =>
          cases cs with
          | nil => simp [unescapeChars]
          | cons d ds => exact absurd hcs escapeChars_ne_nil
        | cons d ds =>
          rw [show unescapeChars (c :: d :: ds) = c :: unescapeChars (d :: ds) from by
            simp [unescapeChars, h1]]
          rw [← hcs, unescape_escape cs]

theorem escapeChars_no_slash : ∀ cs, '/' ∉ escapeChars cs
  | [] => by simp [escapeChars]
  | c :: cs => by
    by_cases h1 : c = '~'
    · subst h1
      rw [show escapeChars ('~' :: cs) = '~' :: '0' :: escapeChars cs from by
        simp [escapeChars]]
      simp [escapeChars_no_slash cs]
    · by_cases h2 : c = '/'
      · subst h2
        rw [show escapeChars ('/' :: cs) = '~' :: '1' :: escapeChars cs from by
          simp [escapeChars]]
        simp [escapeChars_no_slash cs]
      · rw [show escapeChars (c :: cs) = c :: escapeChars cs from by
          simp [escapeChars, h1, h2]]
        simp [Ne.symm h2, escapeChars_no_slash cs]

/-- Split a character list at every `/`. -/
def splitSlash : List Char → List (List Char)
  | [] => [[]]
  | c :: cs =>
    if c = '/' then [] :: splitSlash cs
    else
      match splitSlash cs with
      | t :: ts => (c :: t) :: ts
      | [] => [[c]]

/-- Join token character lists with `/` separators. -/
def joinSlash : List (List Char) → List Char
  | [] => []
  | [t] => t
  | t :: ts => t ++ '/' :: joinSlash ts

theorem splitSlash_ne_nil : ∀ cs, splitSlash cs ≠ []
  | [] => by simp [splitSlash]
  | c :: cs => by
    by_cases h : c = '/'
    · simp [splitSlash, h]
    · have := splitSlash_ne_nil cs
      simp only [splitSlash, if_neg h]
      cases splitSlash cs with
      | nil => simp
      | cons t ts => simp

theorem splitSlash_single : ∀ t : List Char, '/' ∉ t → splitSlash t = [t]
  | [] => fun _ => rfl
  | c :: cs => by
    intro hno
    have hc : ¬ c = '/' := fun h => hno (by simp [h])
    have hcs : '/' ∉ cs := fun h => hno (List.mem_cons_of_mem _ h)
    simp only [splitSlash, if_neg hc, splitSlash_single cs hcs]

theorem splitSlash_sep :
    ∀ t rest, '/' ∉ t → splitSlash (t ++ '/' :: rest) = t :: splitSlash rest
  | [], rest => by intro _; simp [splitSlash]
  | c :: cs, rest => by
    intro hno
    have hc : ¬ c = '/' := fun h => hno (by simp [h])
    have hcs : '/' ∉ cs := fun h => hno (List.mem_cons_of_mem _ h)
    have := splitSlash_sep cs rest hcs
    simp only [List.cons_append, splitSlash, if_neg hc, List.append_eq, this]

theorem splitSlash_join :
    ∀ ts, ts ≠ [] → (∀ t ∈ ts, '/' ∉ t) → splitSlash (joinSlash ts) = ts := by
  intro ts
  induction ts with
  | nil => intro h; exact absurd rfl h
  | cons t ts ih =>
    intro _ hno
    have hno_t : '/' ∉ t := hno t (by simp)
    cases ts with
    | nil => simpa [joinSlash] using splitSlash_single t hno_t
    | cons t2 ts2 =>
      have hrest : splitSlash (joinSlash (t2 :: ts2)) = t2 :: ts2 :=
        ih (by simp) (fun u hu => hno u (List.mem_cons_of_mem _ hu))
      rw [show joinSlash (t :: t2 :: ts2) = t ++ '/' :: joinSlash (t2 :: ts2) from rfl]
      rw [splitSlash_sep t _ hno_t, hrest]

/-- Encode a token list as a JSON-Pointer string (RFC 6901): empty list is the
root pointer `""`; otherwise each escaped token is preceded by `/`. -/
def encodePath (toks : List String) : String :=
  match toks with
  | [] => ""
  | _ => ⟨'/' :: joinSlash (toks.map (fun t => escapeChars t.data))⟩

/-- Modelled from the spec: pointer decoding as performed by `fast-json-patch`
when resolving an operation's `path`/`from`.  `""` denotes the root; any other
pointer must start with `/` and splits into unescaped reference tokens (so
`"/"` denotes the single empty-string token, per RFC 6901). -/
def parsePointer (s : String) : Option (List String) :=
  match s.data with
  | [] => some []
  | '/' :: rest => some ((splitSlash rest).map (fun cs => ⟨unescapeChars cs⟩))
  | _ => none

/-- Decoding an encoded pointer recovers exactly the original tokens. -/
theorem parsePointer_encodePath (toks : List String) :
    parsePointer (encodePath toks) = some toks := by
  cases toks with
  | nil => rfl
  | cons t ts =>
    have h1 : ((t :: ts).map (fun u => escapeChars u.data)) ≠ [] := by simp
    have h2 : ∀ u ∈ (t :: ts).map (fun u => escapeChars u.data), '/' ∉ u := by
      intro u hu
      simp only [List.mem_map] at hu
      obtain ⟨w, _, rfl⟩ := hu
      exact escapeChars_no_slash _
    simp only [encodePath, parsePointer]
    rw [splitSlash_join _ h1 h2]
    simp only [List.map_map]
    have hcomp : ((fun cs => (⟨unescapeChars cs⟩ : String)) ∘ fun u => escapeChars u.data) = id := by
      funext u
      cases u with
      | mk d => simp [Function.comp, unescape_escape]
    rw [hcomp, List.map_id]

/-! ## Object field lists -/

/-- Look up a key in an object's field list (first match, as JS property
access). -/
def lookupField : List (String × JValue) → String → Option JValue
  | [], _ => none
  | (k, v) :: fs, t => if t = k then some v else lookupField fs t

/-- Key-membership test. -/
def hasField (fs : List (String × JValue)) (t : String) : Bool :=
  (lookupField fs t).isSome

/-- Set a key to a value: overwrites an existing binding in place, inserts a
new binding at its canonical (key-ordered) position.  This is the object form
of `add`, and the rebuilding step when an operation descends into a field. -/
def insertField : List (String × JValue) → String → JValue → List (String × JValue)
  | [], t, v => [(t, v)]
  | (k, w) :: fs, t, v =>
    if keyLt t k then (t, v) :: (k, w) :: fs
    else if t = k then (t, v) :: fs
    else (k, w) :: insertField fs t v

/-- Delete a key's binding (object form of `remove`). -/
def eraseField : List (String × JValue) → String → List (String × JValue)
  | [], _ => []
  | (k, w) :: fs, t => if t = k then fs else (k, w) :: eraseField fs t

/-! ## Array element lists -/

/-- Insert a value before position `i` (array form of `add`; callers ensure
`i ≤ length`). -/
def insertAt (xs : List JValue) (n : Nat) (v : JValue) : List JValue :=
  match n, xs with
  | 0, xs => v :: xs
  | _ + 1, [] => [v]
  | n + 1, x :: xs => x :: insertAt xs n v

/-- Remove the element at position `i` (array form of `remove`; callers ensure
`i < length`). -/
def removeAt : List JValue → Nat → List JValue
  | [], _ => []
  | _ :: xs, 0 => xs
  | x :: xs, n + 1 => x :: removeAt xs n

theorem insertAt_append_length :
    ∀ (done : List JValue) v, insertAt done done.length v = done ++ [v]
  | [], v => rfl
  | x :: xs, v => by
    simp only [List.length_cons, insertAt, insertAt_append_length xs v, List.cons_append]

theorem insertAt_append :
    ∀ (done xs : List JValue) v, insertAt (done ++ xs) done.length v = done ++ v :: xs
  | [], xs, v => by simp [insertAt]
  | d :: done, xs, v => by
    simp only [List.cons_append, List.length_cons, insertAt, List.append_eq,
      insertAt_append done xs v]

theorem removeAt_append :
    ∀ (done : List JValue) x xs, removeAt (done ++ x :: xs) done.length = done ++ xs
  | [], x, xs => rfl
  | d :: done, x, xs => by
    simp only [List.cons_append, List.length_cons, removeAt, List.append_eq,
      removeAt_append done x xs]

theorem set_append_length :
    ∀ (done : List JValue) x xs v, (done ++ x :: xs).set done.length v = done ++ v :: xs
  | [], x, xs, v => rfl
  | d :: done, x, xs, v => by
    simp only [List.cons_append, List.length_cons, List.set_cons_succ,
      set_append_length done x xs v]

theorem getElem?_append_length :
    ∀ (done : List JValue) x xs, (done ++ x :: xs)[done.length]? = some x
  | [], x, xs => by simp
  | d :: done, x, xs => by
    simp only [List.cons_append, List.length_cons, List.getElem?_cons_succ,
      getElem?_append_length done x xs]

/-! ## Canonical documents

A canonical `JValue` keeps every object's field list strictly increasing in
`keyLt`: the canonical representative of a JS object modulo deep equality. -/

/-- Field keys strictly increasing. -/
def sortedKeysB : List (String × JValue) → Bool
  | [] => true
  | [_] => true
  | (k, _) :: (l, w) :: fs => keyLt k l && sortedKeysB ((l, w) :: fs)

mutual

/-- Canonical-form predicate for documents. -/
def canonB : JValue → Bool
  | .null => true
  | .bool _ => true
  | .num _ => true
  | .str _ => true
  | .arr xs => canonList xs
  | .obj fs => sortedKeysB fs && canonFields fs

/-- Canonical-form predicate for array element lists. -/
def canonList : List JValue → Bool
  | [] => true
  | x :: xs => canonB x && canonList xs

/-- Canonical-form predicate for object field values. -/
def canonFields : List (String × JValue) → Bool
  | [] => true
  | (_, v) :: fs => canonB v && canonFields fs

end

/-! ## Path-addressed reads and writes

Modelled from the spec (§4.2 step 3): resolution of a reference-token path
against a document, and the `add`/`remove`/`replace` primitive mutations.
An object interprets the token as a key; an array interprets it as a decimal
index (or `-`, one past the end, for `add`); any other combination is a
path-resolution failure (`none`). -/

/-- Resolve a token path to the value it references. -/
def getV : JValue → List String → Option JValue
  | doc, [] => some doc
  | .obj fs, t :: p =>
    match lookupField fs t with
    | some v => getV v p
    | none => none
  | .arr xs, t :: p =>
    match parseIndex t with
    | some i =>
      match xs[i]? with
      | some v => getV v p
      | none => none
    | none => none
  | _, _ :: _ => none

/-- `add` at a path: at the root it replaces the whole document; at an object
it inserts or overwrites the key; at an array it inserts at the index
(shifting later elements right), appending for `-` or an index equal to the
length; the index must be in `[0, length]`. -/
def addV : JValue → List String → JValue → Option JValue
  | _, [], v => some v
  | .obj fs, [t], v => some (.obj (insertField fs t v))
  | .arr xs, [t], v =>
    if t = "-" then some (.arr (xs ++ [v]))
    else
      match parseIndex t with
      | some i => if i ≤ xs.length then some (.arr (insertAt xs i v)) else none
      | none => none
  | .obj fs, t :: u :: p, v =>
    match lookupField fs t with
    | some c =>
      match addV c (u :: p) v with
      | some c2 => some (.obj (insertField fs t c2))
      | none => none
    | none => none
  | .arr xs, t :: u :: p, v =>
    match parseIndex t with
    | some i =>
      match xs[i]? with
      | some c =>
        match addV c (u :: p) v with
        | some c2 => some (.arr (xs.set i c2))
        | none => none
      | none => none
    | none => none
  | _, _ :: _, _ => none

/-- `remove` at a path: the target must exist; object keys are deleted and
array elements shift left.  The root itself cannot be removed. -/
def removeV : JValue → List String → Option JValue
  | _, [] => none
  | .obj fs, [t] => if hasField fs t then some (.obj (eraseField fs t)) else none
  | .arr xs, [t] =>
    match parseIndex t with
    | some i => if i < xs.length then some (.arr (removeAt xs i)) else none
    | none => none
  | .obj fs, t :: u :: p =>
    match lookupField fs t with
    | some c =>
      match removeV c (u :: p) with
      | some c2 => some (.obj (insertField fs t c2))
      | none => none
    | none => none
  | .arr xs, t :: u :: p =>
    match parseIndex t with
    | some i =>
      match xs[i]? with
      | some c =>
        match removeV c (u :: p) with
        | some c2 => some (.arr (xs.set i c2))
        | none => none
      | none => none
    | none => none
  | _, _ :: _ => none

/-- `replace` at a path: at the root it replaces the whole document; otherwise
the target must exist and is overwritten in place. -/
def replaceV : JValue → List String → JValue → Option JValue
  | _, [], v => some v
  | .obj fs, [t], v => if hasField fs t then some (.obj (insertField fs t v)) else none
  | .arr xs, [t], v =>
    match parseIndex t with
    | some i => if i < xs.length then some (.arr (xs.set i v)) else none
    | none => none
  | .obj fs, t :: u :: p, v =>
    match lookupField fs t with
    | some c =>
      match replaceV c (u :: p) v with
      | some c2 => some (.obj (insertField fs t c2))
      | none => none
    | none => none
  | .arr xs, t :: u :: p, v =>
    match parseIndex t with
    | some i =>
      match xs[i]? with
      | some c =>
        match replaceV c (u :: p) v with
        | some c2 => some (.arr (xs.set i c2))
        | none => none
      | none => none
    | none => none
  | _, _ :: _, _ => none

/-! ## Token-level operations emitted by the diff

The diff algorithm only ever emits `add`, `remove` and `replace` (spec §1
non-goals, §4.1).  `OpT` is the token-path form of those three operations. -/

/-- A diff-emitted operation over a token path. -/
inductive OpT : Type
  | add (path : List String) (value : JValue)
  | remove (path : List String)
  | replace (path : List String) (value : JValue)

/-- The operation's token path. -/
def OpT.path : OpT → List String
  | .add p _ => p
  | .remove p => p
  | .replace p _ => p

/-- Prefix an operation's path with one reference token (used when the diff
recursion descends into an object field or array element). -/
def prependOp (t : String) : OpT → OpT
  | .add p v => .add (t :: p) v
  | .remove p => .remove (t :: p)
  | .replace p v => .replace (t :: p) v

/-- Apply one token-level operation. -/
def applyOpT (doc : JValue) : OpT → Option JValue
  | .add p v => addV doc p v
  | .remove p => removeV doc p
  | .replace p v => replaceV doc p v

/-- Apply a token-level operation sequence strictly in order, failing fast. -/
def applyListT (doc : JValue) : List OpT → Option JValue
  | [] => some doc
  | op :: ops =>
    match applyOpT doc op with
    | some d => applyListT d ops
    | none => none

/-- Diff output never adds or removes at the root (those two forms arise only
under an object key or array index). -/
def okShapeB : OpT → Bool
  | .add p _ => !p.isEmpty
  | .remove p => !p.isEmpty
  | .replace _ _ => true

theorem applyListT_append (ops1 ops2 : List OpT) :
    ∀ doc d1, applyListT doc ops1 = some d1 →
      applyListT doc (ops1 ++ ops2) = applyListT d1 ops2 := by
  induction ops1 with
  | nil =>
    intro doc d1 h
    simp only [applyListT] at h
    cases h
    simp
  | cons op ops ih =>
    intro doc d1 h
    simp only [applyListT] at h
    simp only [List.cons_append, applyListT]
    cases hop : applyOpT doc op with
    | none => rw [hop] at h; exact absurd h (by simp)
    | some d2 =>
      rw [hop] at h
      exact ih d2 d1 h

/-! ## The diff algorithm

Modelled from the spec (§4.1, the `compare` engine of `fast-json-patch`, not
part of the repository's sources): recursive structural comparison.  Scalars
and kind-mismatched values yield a single `replace`; objects are compared
key-by-key (adds for keys only in `updated`, removes for keys only in
`original`, recursion for shared keys — here as a merge of the two canonical,
key-ordered field lists); arrays are compared element-by-element by index,
with trailing `add`s in ascending index order and trailing `remove`s in
descending index order. -/

mutual

/-- Operations transforming `original` into `updated`, with paths relative to
the point of comparison. -/
def diffV : JValue → JValue → List OpT
  | .obj fs, .obj gs => diffFields fs gs
  | .arr xs, .arr ys => diffElems 0 xs ys
  | a, b => if a = b then [] else [.replace [] b]

/-- Key-merge comparison of two canonical field lists. -/
def diffFields : List (String × JValue) → List (String × JValue) → List OpT
  | [], [] => []
  | (k, _) :: fs, [] => .remove [k] :: diffFields fs []
  | [], (l, w) :: gs => .add [l] w :: diffFields [] gs
  | (k, v) :: fs, (l, w) :: gs =>
    if keyLt k l then .remove [k] :: diffFields fs ((l, w) :: gs)
    else if k = l then (diffV v w).map (prependOp k) ++ diffFields fs gs
    else .add [l] w :: diffFields ((k, v) :: fs) gs

/-- Index-wise comparison of two element lists, starting at index `i`. -/
def diffElems : Nat → List JValue → List JValue → List OpT
  | _, [], [] => []
  | i, x :: xs, y :: ys =>
    (diffV x y).map (prependOp (natToString i)) ++ diffElems (i + 1) xs ys
  | i, [], y :: ys => .add [natToString i] y :: diffElems (i + 1) [] ys
  | i, x :: xs, [] => diffElems (i + 1) xs [] ++ [.remove [natToString i]]

end


/-! ## Field-list lemmas -/

theorem keyLt_ne {k t : String} (h : keyLt k t = true) : ¬ t = k := by
  intro he
  subst he
  rw [keyLt_irrefl] at h
  exact Bool.false_ne_true h

theorem lookupField_cons_skip {k t : String} {w : JValue} {fs} (h : ¬ t = k) :
    lookupField ((k, w) :: fs) t = lookupField fs t := by
  simp [lookupField, h]

theorem lookupField_head {k : String} {w : JValue} {fs} :
    lookupField ((k, w) :: fs) k = some w := by
  simp [lookupField]

theorem hasField_head {k : String} {w : JValue} {fs} :
    hasField ((k, w) :: fs) k = true := by
  simp [hasField, lookupField_head]

theorem insertField_cons_skip {k t : String} {w v : JValue} {fs}
    (h : keyLt k t = true) :
    insertField ((k, w) :: fs) t v = (k, w) :: insertField fs t v := by
  have h1 : keyLt t k = false := keyLt_asymm h
  simp [insertField, h1, keyLt_ne h]

theorem insertField_head_overwrite {k : String} {w v : JValue} {fs} :
    insertField ((k, w) :: fs) k v = (k, v) :: fs := by
  simp [insertField, keyLt_irrefl]

theorem eraseField_cons_skip {k t : String} {w : JValue} {fs} (h : ¬ t = k) :
    eraseField ((k, w) :: fs) t = (k, w) :: eraseField fs t := by
  simp [eraseField, h]

theorem eraseField_head {k : String} {w : JValue} {fs} :
    eraseField ((k, w) :: fs) k = fs := by
  simp [eraseField]

theorem lookupField_mem_keys :
    ∀ {fs} {t : String} {v : JValue}, lookupField fs t = some v → t ∈ fs.map Prod.fst := by
  intro fs
  induction fs with
  | nil => intro t v h; simp [lookupField] at h
  | cons kv fs ih =>
    intro t v h
    obtain ⟨k, w⟩ := kv
    by_cases he : t = k
    · simp [he]
    · rw [lookupField_cons_skip he] at h
      simp only [List.map_cons]
      exact List.mem_cons_of_mem _ (ih h)

theorem sorted_cons {k : String} {v : JValue} {fs}
    (h : sortedKeysB ((k, v) :: fs) = true) :
    sortedKeysB fs = true ∧ ∀ p ∈ fs, keyLt k p.1 = true := by
  induction fs generalizing k v with
  | nil => exact ⟨rfl, by simp⟩
  | cons lw fs ih =>
    obtain ⟨l, w⟩ := lw
    have h1 : keyLt k l = true ∧ sortedKeysB ((l, w) :: fs) = true := by
      simpa [sortedKeysB, Bool.and_eq_true] using h
    obtain ⟨hsort, hbound⟩ := ih h1.2
    refine ⟨h1.2, ?_⟩
    intro p hp
    rcases List.mem_cons.mp hp with rfl | hp2
    · exact h1.1
    · exact keyLt_trans h1.1 (hbound p hp2)

theorem sorted_cons_of {k : String} {v : JValue} {fs}
    (hs : sortedKeysB fs = true) (hb : ∀ p ∈ fs, keyLt k p.1 = true) :
    sortedKeysB ((k, v) :: fs) = true := by
  cases fs with
  | nil => rfl
  | cons lw fs =>
    obtain ⟨l, w⟩ := lw
    have : keyLt k l = true := hb (l, w) (by simp)
    simp [sortedKeysB, this, hs]

theorem lookupField_insertField_self :
    ∀ {fs} {t : String} {v : JValue}, lookupField (insertField fs t v) t = some v := by
  intro fs
  induction fs with
  | nil => intro t v; simp [insertField, lookupField]
  | cons kw fs ih =>
    intro t v
    obtain ⟨k, w⟩ := kw
    by_cases h1 : keyLt t k = true
    · simp [insertField, h1, lookupField]
    · by_cases h2 : t = k
      · subst h2
        simp [insertField, h1, lookupField]
      · simp only [insertField, h1, if_neg h2, Bool.false_eq_true, if_false]
        rw [lookupField_cons_skip h2]
        exact ih

theorem insertField_insertField :
    ∀ {fs} {t : String} {a b : JValue},
      insertField (insertField fs t a) t b = insertField fs t b := by
  intro fs
  induction fs with
  | nil => intro t a b; simp [insertField, keyLt_irrefl]
  | cons kw fs ih =>
    intro t a b
    obtain ⟨k, w⟩ := kw
    by_cases h1 : keyLt t k = true
    · simp [insertField, h1, keyLt_irrefl]
    · by_cases h2 : t = k
      · subst h2
        simp [insertField, h1, keyLt_irrefl]
      · simp only [insertField, h1, if_neg h2, Bool.false_eq_true, if_false]
        rw [ih]

theorem insertField_self :
    ∀ {fs} {t : String} {v : JValue}, sortedKeysB fs = true →
      lookupField fs t = some v → insertField fs t v = fs := by
  intro fs
  induction fs with
  | nil => intro t v _ h; simp [lookupField] at h
  | cons kw fs ih =>
    intro t v hs h
    obtain ⟨k, w⟩ := kw
    by_cases h2 : t = k
    · subst h2
      rw [lookupField_head] at h
      cases h
      exact insertField_head_overwrite
    · rw [lookupField_cons_skip h2] at h
      have hkt : keyLt k t = true := by
        have := (sorted_cons hs).2
        have hm := lookupField_mem_keys h
        rcases List.mem_map.mp hm with ⟨p, hp, rfl⟩
        exact this p hp
      rw [insertField_cons_skip hkt, ih (sorted_cons hs).1 h]

theorem insertField_keys_sub :
    ∀ {fs} {t : String} {v : JValue} {p}, p ∈ insertField fs t v →
      p.1 = t ∨ p.1 ∈ fs.map Prod.fst := by
  intro fs
  induction fs with
  | nil =>
    intro t v p hp
    simp only [insertField, List.mem_singleton] at hp
    subst hp
    exact Or.inl rfl
  | cons kw fs ih =>
    intro t v p hp
    obtain ⟨k, w⟩ := kw
    by_cases h1 : keyLt t k = true
    · rw [show insertField ((k, w) :: fs) t v = (t, v) :: (k, w) :: fs from by
        simp [insertField, h1]] at hp
      rcases List.mem_cons.mp hp with rfl | hp2
      · exact Or.inl rfl
      · exact Or.inr (List.mem_map.mpr ⟨p, hp2, rfl⟩)
    · by_cases h2 : t = k
      · subst h2
        rw [insertField_head_overwrite] at hp
        rcases List.mem_cons.mp hp with rfl | hp2
        · exact Or.inl rfl
        · exact Or.inr (List.mem_map.mpr ⟨p, List.mem_cons_of_mem _ hp2, rfl⟩)
      · rw [show insertField ((k, w) :: fs) t v = (k, w) :: insertField fs t v from by
          simp [insertField, h1, h2]] at hp
        rcases List.mem_cons.mp hp with rfl | hp2
        · exact Or.inr (List.mem_map.mpr ⟨(k, w), List.mem_cons_self _ _, rfl⟩)
        · rcases ih hp2 with h | h
          · exact Or.inl h
          · rcases List.mem_map.mp h with ⟨q, hq, he⟩
            exact Or.inr (List.mem_map.mpr ⟨q, List.mem_cons_of_mem _ hq, he⟩)

theorem insertField_sorted :
    ∀ {fs} {t : String} {v : JValue}, sortedKeysB fs = true →
      sortedKeysB (insertField fs t v) = true := by
  intro fs
  induction fs with
  | nil => intro t v _; rfl
  | cons kw fs ih =>
    intro t v hs
    obtain ⟨k, w⟩ := kw
    obtain ⟨hsfs, hbound⟩ := sorted_cons hs
    by_cases h1 : keyLt t k = true
    · rw [show insertField ((k, w) :: fs) t v = (t, v) :: (k, w) :: fs from by
        simp [insertField, h1]]
      refine sorted_cons_of hs ?_
      intro p hp
      rcases List.mem_cons.mp hp with rfl | hp2
      · exact h1
      · exact keyLt_trans h1 (hbound p hp2)
    · by_cases h2 : t = k
      · subst h2
        rw [insertField_head_overwrite]
        exact sorted_cons_of hsfs hbound
      · have hkt : keyLt k t = true := by
          by_cases h3 : keyLt k t = true
          · exact h3
          · exact absurd (keyLt_total (Bool.eq_false_iff.mpr (h1 ∘ id))
              (Bool.eq_false_iff.mpr (h3 ∘ id))) h2
        rw [insertField_cons_skip hkt]
        refine sorted_cons_of (ih hsfs) ?_
        intro p hp
        rcases insertField_keys_sub hp with h | h
        · rw [h]; exact hkt
        · rcases List.mem_map.mp h with ⟨q, hq, he⟩
          rw [← he]
          exact hbound q hq

/-! ## Frame lemmas for path-addressed operations -/

theorem lt_length_of_getElem?_some {xs : List JValue} {i : Nat} {v : JValue}
    (h : xs[i]? = some v) : i < xs.length :=
  (List.getElem?_eq_some.mp h).1

theorem set_getElem?_self :
    ∀ {xs : List JValue} {i : Nat} {v : JValue}, xs[i]? = some v → xs.set i v = xs := by
  intro xs
  induction xs with
  | nil => intro i v h; simp at h
  | cons x xs ih =>
    intro i v h
    cases i with
    | zero => simp_all
    | succ n =>
      simp only [List.getElem?_cons_succ] at h
      simp [List.set_cons_succ, ih h]

theorem OpT.path_prependOp (t : String) (op : OpT) :
    (prependOp t op).path = t :: op.path := by
  cases op <;> rfl

theorem okShapeB_prependOp (t : String) (op : OpT) :
    okShapeB (prependOp t op) = true := by
  cases op <;> simp [prependOp, okShapeB]

/-- Descending frame (object field, one operation): applying a relative
operation succeeds on a field's value exactly as applying its `k`-prefixed
form succeeds on the object, rebuilding the field in place. -/
theorem applyOpT_descend_obj {op : OpT} {v v2 : JValue}
    (hshape : okShapeB op = true) (hv : applyOpT v op = some v2)
    {fs : List (String × JValue)} {k : String} (hlook : lookupField fs k = some v) :
    applyOpT (.obj fs) (prependOp k op) = some (.obj (insertField fs k v2)) := by
  cases op with
  | add p val =>
    cases p with
    | nil => simp [okShapeB] at hshape
    | cons u p =>
      simp only [applyOpT] at hv
      simp only [prependOp, applyOpT, addV, hlook, hv]
  | remove p =>
    cases p with
    | nil => simp [okShapeB] at hshape
    | cons u p =>
      simp only [applyOpT] at hv
      simp only [prependOp, applyOpT, removeV, hlook, hv]
  | replace p val =>
    cases p with
    | nil =>
      simp only [applyOpT, replaceV] at hv
      cases hv
      simp only [prependOp, applyOpT, replaceV]
      rw [if_pos (by simp [hasField, hlook])]
    | cons u p =>
      simp only [applyOpT] at hv
      simp only [prependOp, applyOpT, replaceV, hlook, hv]

/-- Descending frame (array element, one operation). -/
theorem applyOpT_descend_arr {op : OpT} {v v2 : JValue}
    (hshape : okShapeB op = true) (hv : applyOpT v op = some v2)
    {xs : List JValue} {i : Nat} (hget : xs[i]? = some v) :
    applyOpT (.arr xs) (prependOp (natToString i) op) = some (.arr (xs.set i v2)) := by
  have hidx := parseIndex_natToString i
  have hlen := lt_length_of_getElem?_some hget
  cases op with
  | add p val =>
    cases p with
    | nil => simp [okShapeB] at hshape
    | cons u p =>
      simp only [applyOpT] at hv
      simp only [prependOp, applyOpT, addV, hidx, hget, hv]
  | remove p =>
    cases p with
    | nil => simp [okShapeB] at hshape
    | cons u p =>
      simp only [applyOpT] at hv
      simp only [prependOp, applyOpT, removeV, hidx, hget, hv]
  | replace p val =>
    cases p with
    | nil =>
      simp only [applyOpT, replaceV] at hv
      cases hv
      simp only [prependOp, applyOpT, replaceV, hidx]
      rw [if_pos hlen]
    | cons u p =>
      simp only [applyOpT] at hv
      simp only [prependOp, applyOpT, replaceV, hidx, hget, hv]

/-- Descending frame (object field, operation list). -/
theorem applyListT_descend_obj :
    ∀ {ops : List OpT}, (∀ op ∈ ops, okShapeB op = true) →
    ∀ {v w : JValue} {fs : List (String × JValue)} {k : String},
      sortedKeysB fs = true → applyListT v ops = some w → lookupField fs k = some v →
      applyListT (.obj fs) (ops.map (prependOp k)) = some (.obj (insertField fs k w)) := by
  intro ops
  induction ops with
  | nil =>
    intro _ v w fs k hsort h hlook
    simp only [applyListT] at h
    cases h
    simp only [List.map_nil, applyListT]
    rw [insertField_self hsort hlook]
  | cons op ops ih =>
    intro hshapes v w fs k hsort h hlook
    simp only [applyListT] at h
    cases hop : applyOpT v op with
    | none => rw [hop] at h; exact absurd h (by simp)
    | some v1 =>
      rw [hop] at h
      have hstep := applyOpT_descend_obj (hshapes op (by simp)) hop hlook
      simp only [List.map_cons, applyListT, hstep]
      have := @ih (fun o ho => hshapes o (List.mem_cons_of_mem _ ho))
        v1 w (insertField fs k v1) k (insertField_sorted hsort) h
        lookupField_insertField_self
      rw [this, insertField_insertField]

/-- Descending frame (array element, operation list). -/
theorem applyListT_descend_arr :
    ∀ {ops : List OpT}, (∀ op ∈ ops, okShapeB op = true) →
    ∀ {v w : JValue} {xs : List JValue} {i : Nat},
      applyListT v ops = some w → xs[i]? = some v →
      applyListT (.arr xs) (ops.map (prependOp (natToString i))) = some (.arr (xs.set i w)) := by
  intro ops
  induction ops with
  | nil =>
    intro _ v w xs i h hget
    simp only [applyListT] at h
    cases h
    simp only [List.map_nil, applyListT]
    rw [set_getElem?_self hget]
  | cons op ops ih =>
    intro hshapes v w xs i h hget
    simp only [applyListT] at h
    cases hop : applyOpT v op with
    | none => rw [hop] at h; exact absurd h (by simp)
    | some v1 =>
      rw [hop] at h
      have hstep := applyOpT_descend_arr (hshapes op (by simp)) hop hget
      simp only [List.map_cons, applyListT, hstep]
      have hget2 : (xs.set i v1)[i]? = some v1 :=
        List.getElem?_set_eq_of_lt _ (by
          simpa using lt_length_of_getElem?_some hget)
      have := @ih (fun o ho => hshapes o (List.mem_cons_of_mem _ ho))
        v1 w (xs.set i v1) i h hget2
      rw [this, List.set_set]

/-- An operation with a nonempty path keeps an object an object. -/
theorem applyOpT_obj_shape {fs : List (String × JValue)} {op : OpT} {d : JValue}
    (hpath : op.path ≠ []) (h : applyOpT (.obj fs) op = some d) :
    ∃ fs2, d = .obj fs2 := by
  cases op with
  | add p val =>
    cases p with
    | nil => exact absurd rfl hpath
    | cons t q =>
      cases q with
      | nil =>
        simp only [applyOpT, addV] at h
        exact ⟨_, (Option.some_inj.mp h).symm⟩
      | cons u r =>
        simp only [applyOpT, addV] at h
        cases hl : lookupField fs t with
        | none => simp [hl] at h
        | some c =>
          simp only [hl] at h
          cases ha : addV c (u :: r) val with
          | none => simp [ha] at h
          | some c2 =>
            simp only [ha] at h
            exact ⟨_, (Option.some_inj.mp h).symm⟩
  | remove p =>
    cases p with
    | nil => exact absurd rfl hpath
    | cons t q =>
      cases q with
      | nil =>
        simp only [applyOpT, removeV] at h
        by_cases hf : hasField fs t = true
        · rw [if_pos hf] at h
          exact ⟨_, (Option.some_inj.mp h).symm⟩
        · rw [if_neg hf] at h; simp at h
      | cons u r =>
        simp only [applyOpT, removeV] at h
        cases hl : lookupField fs t with
        | none => simp [hl] at h
        | some c =>
          simp only [hl] at h
          cases ha : removeV c (u :: r) with
          | none => simp [ha] at h
          | some c2 =>
            simp only [ha] at h
            exact ⟨_, (Option.some_inj.mp h).symm⟩
  | replace p val =>
    cases p with
    | nil => exact absurd rfl hpath
    | cons t q =>
      cases q with
      | nil =>
        simp only [applyOpT, replaceV] at h
        by_cases hf : hasField fs t = true
        · rw [if_pos hf] at h
          exact ⟨_, (Option.some_inj.mp h).symm⟩
        · rw [if_neg hf] at h; simp at h
      | cons u r =>
        simp only [applyOpT, replaceV] at h
        cases hl : lookupField fs t with
        | none => simp [hl] at h
        | some c =>
          simp only [hl] at h
          cases ha : replaceV c (u :: r) val with
          | none => simp [ha] at h
          | some c2 =>
            simp only [ha] at h
            exact ⟨_, (Option.some_inj.mp h).symm⟩

/-- Skipping frame (one operation): an operation whose first token is a key
strictly greater than `k` acts on `(k, w) :: fs` exactly as on `fs`, leaving
the head binding alone. -/
theorem applyOpT_consSkip {op : OpT} {t : String} {q : List String}
    (hpath : op.path = t :: q) {k : String} (hlt : keyLt k t = true)
    {w : JValue} {fs fs2 : List (String × JValue)}
    (h : applyOpT (.obj fs) op = some (.obj fs2)) :
    applyOpT (.obj ((k, w) :: fs)) op = some (.obj ((k, w) :: fs2)) := by
  have hne : ¬ t = k := keyLt_ne hlt
  cases op with
  | add p val =>
    cases hpath
    cases q with
    | nil =>
      simp only [applyOpT, addV] at h ⊢
      rw [insertField_cons_skip hlt]
      cases Option.some_inj.mp h
      rfl
    | cons u r =>
      simp only [applyOpT, addV] at h ⊢
      rw [lookupField_cons_skip hne]
      cases hl : lookupField fs t with
      | none => simp [hl] at h
      | some c =>
        simp only [hl] at h
        cases ha : addV c (u :: r) val with
        | none => simp [ha] at h
        | some c2 =>
          simp only [ha] at h
          simp only [ha]
          rw [insertField_cons_skip hlt]
          cases (JValue.obj.inj (Option.some_inj.mp h))
          rfl
  | remove p =>
    cases hpath
    cases q with
    | nil =>
      simp only [applyOpT, removeV] at h ⊢
      by_cases hf : hasField fs t = true
      · rw [if_pos hf] at h
        rw [if_pos (by simp [hasField, lookupField_cons_skip hne]; simpa [hasField] using hf)]
        rw [eraseField_cons_skip hne]
        cases (JValue.obj.inj (Option.some_inj.mp h))
        rfl
      · rw [if_neg hf] at h; simp at h
    | cons u r =>
      simp only [applyOpT, removeV] at h ⊢
      rw [lookupField_cons_skip hne]
      cases hl : lookupField fs t with
      | none => simp [hl] at h
      | some c =>
        simp only [hl] at h
        cases ha : removeV c (u :: r) with
        | none => simp [ha] at h
        | some c2 =>
          simp only [ha] at h
          simp only [ha]
          rw [insertField_cons_skip hlt]
          cases (JValue.obj.inj (Option.some_inj.mp h))
          rfl
  | replace p val =>
    cases hpath
    cases q with
    | nil =>
      simp only [applyOpT, replaceV] at h ⊢
      by_cases hf : hasField fs t = true
      · rw [if_pos hf] at h
        rw [if_pos (by simp [hasField, lookupField_cons_skip hne]; simpa [hasField] using hf)]
        rw [insertField_cons_skip hlt]
        cases (JValue.obj.inj (Option.some_inj.mp h))
        rfl
      · rw [if_neg hf] at h; simp at h
    | cons u r =>
      simp only [applyOpT, replaceV] at h ⊢
      rw [lookupField_cons_skip hne]
      cases hl : lookupField fs t with
      | none => simp [hl] at h
      | some c =>
        simp only [hl] at h
        cases ha : replaceV c (u :: r) val with
        | none => simp [ha] at h
        | some c2 =>
          simp only [ha] at h
          simp only [ha]
          rw [insertField_cons_skip hlt]
          cases (JValue.obj.inj (Option.some_inj.mp h))
          rfl

/-- Skipping frame (operation list). -/
theorem applyListT_consSkip :
    ∀ {ops : List OpT},
      (∀ op ∈ ops, ∃ t q, op.path = t :: q ∧ keyLt k t = true) →
      ∀ {fs fs2 : List (String × JValue)} {w : JValue},
        applyListT (.obj fs) ops = some (.obj fs2) →
        applyListT (.obj ((k, w) :: fs)) ops = some (.obj ((k, w) :: fs2)) := by
  intro ops
  induction ops with
  | nil =>
    intro _ fs fs2 w h
    simp only [applyListT] at h ⊢
    rw [JValue.obj.inj (Option.some_inj.mp h)]
  | cons op ops ih =>
    intro hbound fs fs2 w h
    simp only [applyListT] at h
    cases hop : applyOpT (.obj fs) op with
    | none => rw [hop] at h; simp at h
    | some d1 =>
      rw [hop] at h
      obtain ⟨t, q, hpath, hlt⟩ := hbound op (by simp)
      obtain ⟨fs1, rfl⟩ := applyOpT_obj_shape (by rw [hpath]; simp) hop
      have hstep := applyOpT_consSkip hpath hlt (w := w) hop
      simp only [applyListT, hstep]
      exact ih (fun o ho => hbound o (List.mem_cons_of_mem _ ho)) h

/-! ## Shape of the diff output -/

/-- The three forms a `diffV` result can take, following the comparison's
case split. -/
theorem diffV_eq_cases (a b : JValue) :
    (∃ fs gs, a = .obj fs ∧ b = .obj gs ∧ diffV a b = diffFields fs gs) ∨
    (∃ xs ys, a = .arr xs ∧ b = .arr ys ∧ diffV a b = diffElems 0 xs ys) ∨
    diffV a b = (if a = b then [] else [.replace [] b]) := by
  cases a <;> cases b <;> simp [diffV]

theorem diffFields_shape (fs gs : List (String × JValue)) :
    ∀ op ∈ diffFields fs gs, okShapeB op = true := by
  cases fs with
  | nil =>
    cases gs with
    | nil => simp [diffFields]
    | cons lw gs =>
      obtain ⟨l, w⟩ := lw
      intro op hop
      rw [show diffFields [] ((l, w) :: gs) = .add [l] w :: diffFields [] gs from by
        simp [diffFields]] at hop
      rcases List.mem_cons.mp hop with rfl | hop2
      · rfl
      · exact diffFields_shape [] gs op hop2
  | cons kv fs =>
    obtain ⟨k, v⟩ := kv
    cases gs with
    | nil =>
      intro op hop
      rw [show diffFields ((k, v) :: fs) [] = .remove [k] :: diffFields fs [] from by
        simp [diffFields]] at hop
      rcases List.mem_cons.mp hop with rfl | hop2
      · rfl
      · exact diffFields_shape fs [] op hop2
    | cons lw gs =>
      obtain ⟨l, w⟩ := lw
      intro op hop
      by_cases h1 : keyLt k l = true
      · rw [show diffFields ((k, v) :: fs) ((l, w) :: gs) =
            .remove [k] :: diffFields fs ((l, w) :: gs) from by
          simp [diffFields, h1]] at hop
        rcases List.mem_cons.mp hop with rfl | hop2
        · rfl
        · exact diffFields_shape fs ((l, w) :: gs) op hop2
      · by_cases h2 : k = l
        · rw [show diffFields ((k, v) :: fs) ((l, w) :: gs) =
              (diffV v w).map (prependOp k) ++ diffFields fs gs from by
            simp [diffFields, h1, h2, keyLt_irrefl]] at hop
          rcases List.mem_append.mp hop with hmem | hop2
          · rcases List.mem_map.mp hmem with ⟨o, _, rfl⟩
            exact okShapeB_prependOp _ o
          · exact diffFields_shape fs gs op hop2
        · rw [show diffFields ((k, v) :: fs) ((l, w) :: gs) =
              .add [l] w :: diffFields ((k, v) :: fs) gs from by
            simp [diffFields, h1, h2]] at hop
          rcases List.mem_cons.mp hop with rfl | hop2
          · rfl
          · exact diffFields_shape ((k, v) :: fs) gs op hop2
termination_by sizeOf fs + sizeOf gs

theorem diffElems_shape (i : Nat) (xs ys : List JValue) :
    ∀ op ∈ diffElems i xs ys, okShapeB op = true := by
  cases xs with
  | nil =>
    cases ys with
    | nil => simp [diffElems]
    | cons y ys =>
      intro op hop
      rw [show diffElems i [] (y :: ys) =
          .add [natToString i] y :: diffElems (i + 1) [] ys from by
        simp [diffElems]] at hop
      rcases List.mem_cons.mp hop with rfl | hop2
      · rfl
      · exact diffElems_shape (i + 1) [] ys op hop2
  | cons x xs =>
    cases ys with
    | nil =>
      intro op hop
      rw [show diffElems i (x :: xs) [] =
          diffElems (i + 1) xs [] ++ [.remove [natToString i]] from by
        simp [diffElems]] at hop
      rcases List.mem_append.mp hop with hop2 | hmem
      · exact diffElems_shape (i + 1) xs [] op hop2
      · rw [List.mem_singleton.mp hmem]; rfl
    | cons y ys =>
      intro op hop
      rw [show diffElems i (x :: xs) (y :: ys) =
          (diffV x y).map (prependOp (natToString i)) ++ diffElems (i + 1) xs ys from by
        simp [diffElems]] at hop
      rcases List.mem_append.mp hop with hmem | hop2
      · rcases List.mem_map.mp hmem with ⟨o, _, rfl⟩
        exact okShapeB_prependOp _ o
      · exact diffElems_shape (i + 1) xs ys op hop2
termination_by sizeOf xs + sizeOf ys

/-- Every operation `diffV` emits is well-shaped. -/
theorem diffV_shape (a b : JValue) : ∀ op ∈ diffV a b, okShapeB op = true := by
  rcases diffV_eq_cases a b with ⟨fs, gs, _, _, hd⟩ | ⟨xs, ys, _, _, hd⟩ | hd
  · rw [hd]; exact diffFields_shape fs gs
  · rw [hd]; exact diffElems_shape 0 xs ys
  · rw [hd]
    intro op hop
    split at hop
    · simp at hop
    · rw [List.mem_singleton.mp hop]; rfl

/-- Every operation `diffFields` emits starts with a key of one of the two
field lists. -/
theorem diffFields_keys (fs gs : List (String × JValue)) :
    ∀ op ∈ diffFields fs gs,
      ∃ t q, op.path = t :: q ∧ (t ∈ fs.map Prod.fst ∨ t ∈ gs.map Prod.fst) := by
  cases fs with
  | nil =>
    cases gs with
    | nil => simp [diffFields]
    | cons lw gs =>
      obtain ⟨l, w⟩ := lw
      intro op hop
      rw [show diffFields [] ((l, w) :: gs) = .add [l] w :: diffFields [] gs from by
        simp [diffFields]] at hop
      rcases List.mem_cons.mp hop with rfl | hop2
      · exact ⟨l, [], rfl, Or.inr (by simp)⟩
      · obtain ⟨t, q, hpq, hmem⟩ := diffFields_keys [] gs op hop2
        refine ⟨t, q, hpq, ?_⟩
        rcases hmem with h | h
        · simp at h
        · exact Or.inr (by simp only [List.map_cons]; exact List.mem_cons_of_mem _ h)
  | cons kv fs =>
    obtain ⟨k, v⟩ := kv
    cases gs with
    | nil =>
      intro op hop
      rw [show diffFields ((k, v) :: fs) [] = .remove [k] :: diffFields fs [] from by
        simp [diffFields]] at hop
      rcases List.mem_cons.mp hop with rfl | hop2
      · exact ⟨k, [], rfl, Or.inl (by simp)⟩
      · obtain ⟨t, q, hpq, hmem⟩ := diffFields_keys fs [] op hop2
        refine ⟨t, q, hpq, ?_⟩
        rcases hmem with h | h
        · exact Or.inl (by simp only [List.map_cons]; exact List.mem_cons_of_mem _ h)
        · simp at h
    | cons lw gs =>
      obtain ⟨l, w⟩ := lw
      intro op hop
      by_cases h1 : keyLt k l = true
      · rw [show diffFields ((k, v) :: fs) ((l, w) :: gs) =
            .remove [k] :: diffFields fs ((l, w) :: gs) from by
          simp [diffFields, h1]] at hop
        rcases List.mem_cons.mp hop with rfl | hop2
        · exact ⟨k, [], rfl, Or.inl (by simp)⟩
        · obtain ⟨t, q, hpq, hmem⟩ := diffFields_keys fs ((l, w) :: gs) op hop2
          refine ⟨t, q, hpq, ?_⟩
          rcases hmem with h | h
          · exact Or.inl (by simp only [List.map_cons]; exact List.mem_cons_of_mem _ h)
          · exact Or.inr h
      · by_cases h2 : k = l
        · rw [show diffFields ((k, v) :: fs) ((l, w) :: gs) =
              (diffV v w).map (prependOp k) ++ diffFields fs gs from by
            simp [diffFields, h1, h2, keyLt_irrefl]] at hop
          rcases List.mem_append.mp hop with hmem | hop2
          · rcases List.mem_map.mp hmem with ⟨o, _, rfl⟩
            exact ⟨k, o.path, OpT.path_prependOp k o, Or.inl (by simp)⟩
          · obtain ⟨t, q, hpq, hmem⟩ := diffFields_keys fs gs op hop2
            refine ⟨t, q, hpq, ?_⟩
            rcases hmem with h | h
            · exact Or.inl (by simp only [List.map_cons]; exact List.mem_cons_of_mem _ h)
            · exact Or.inr (by simp only [List.map_cons]; exact List.mem_cons_of_mem _ h)
        · rw [show diffFields ((k, v) :: fs) ((l, w) :: gs) =
              .add [l] w :: diffFields ((k, v) :: fs) gs from by
            simp [diffFields, h1, h2]] at hop
          rcases List.mem_cons.mp hop with rfl | hop2
          · exact ⟨l, [], rfl, Or.inr (by simp)⟩
          · obtain ⟨t, q, hpq, hmem⟩ := diffFields_keys ((k, v) :: fs) gs op hop2
            refine ⟨t, q, hpq, ?_⟩
            rcases hmem with h | h
            · exact Or.inl h
            · exact Or.inr (by simp only [List.map_cons]; exact List.mem_cons_of_mem _ h)
termination_by sizeOf fs + sizeOf gs

theorem applyListT_replace_root (a b : JValue) :
    applyListT a (if a = b then [] else [.replace [] b]) = some b := by
  split
  · subst ‹a = b›
    rfl
  · simp [applyListT, applyOpT, replaceV]

theorem natToString_ne_dash (n : Nat) : ¬ natToString n = "-" := by
  intro h
  obtain ⟨_, hdig, _⟩ := natToCharsAux_spec n n le_rfl
  have hd : natToCharsAux (n + 1) n = ['-'] := by
    have := congrArg String.data h
    simpa [natToString] using this
  rw [hd] at hdig
  exact absurd hdig (by decide)

/-! ## Round trip: applying a diff reproduces the updated document -/

mutual

/-- Core round trip: for canonical documents, applying `diffV a b` to `a`
succeeds and yields exactly `b`. -/
theorem roundtripV (a b : JValue) (ha : canonB a = true) (hb : canonB b = true) :
    applyListT a (diffV a b) = some b := by
  rcases diffV_eq_cases a b with ⟨fs, gs, rfl, rfl, hd⟩ | ⟨xs, ys, rfl, rfl, hd⟩ | hd
  · rw [hd]
    have ha2 : sortedKeysB fs = true ∧ canonFields fs = true := by
      simpa [canonB, Bool.and_eq_true] using ha
    have hb2 : sortedKeysB gs = true ∧ canonFields gs = true := by
      simpa [canonB, Bool.and_eq_true] using hb
    exact roundtripFields fs gs ha2.1 hb2.1 ha2.2 hb2.2
  · rw [hd]
    have h3 := roundtripElems xs ys [] (by simpa [canonB] using ha)
      (by simpa [canonB] using hb)
    simpa using h3
  · rw [hd]
    exact applyListT_replace_root a b
termination_by sizeOf a + sizeOf b

/-- Round trip for object field lists (canonical merge). -/
theorem roundtripFields :
    ∀ (fs gs : List (String × JValue)),
      sortedKeysB fs = true → sortedKeysB gs = true →
      canonFields fs = true → canonFields gs = true →
      applyListT (.obj fs) (diffFields fs gs) = some (.obj gs)
  | [], [], _, _, _, _ => by simp [diffFields, applyListT]
  | [], (l, w) :: gs, _, hsg, _, hcg => by
    have hcg2 : canonB w = true ∧ canonFields gs = true := by
      simpa [canonFields, Bool.and_eq_true] using hcg
    rw [show diffFields [] ((l, w) :: gs) = .add [l] w :: diffFields [] gs from by
      simp [diffFields]]
    have hstep : applyOpT (.obj []) (.add [l] w) = some (.obj [(l, w)]) := by
      simp [applyOpT, addV, insertField]
    simp only [applyListT, hstep]
    have hrec := roundtripFields [] gs rfl (sorted_cons hsg).1 rfl hcg2.2
    have hbound : ∀ op ∈ diffFields [] gs,
        ∃ t q, op.path = t :: q ∧ keyLt l t = true := by
      intro op hop
      obtain ⟨t, q, hpq, hmem⟩ := diffFields_keys [] gs op hop
      refine ⟨t, q, hpq, ?_⟩
      rcases hmem with h | h
      · simp at h
      · rcases List.mem_map.mp h with ⟨p, hp, rfl⟩
        exact (sorted_cons hsg).2 p hp
    exact applyListT_consSkip hbound hrec
  | (k, v) :: fs, [], hs, _, hc, _ => by
    have hc2 : canonB v = true ∧ canonFields fs = true := by
      simpa [canonFields, Bool.and_eq_true] using hc
    rw [show diffFields ((k, v) :: fs) [] = .remove [k] :: diffFields fs [] from by
      simp [diffFields]]
    have hstep : applyOpT (.obj ((k, v) :: fs)) (.remove [k]) = some (.obj fs) := by
      simp only [applyOpT, removeV]
      rw [if_pos hasField_head, eraseField_head]
    simp only [applyListT, hstep]
    exact roundtripFields fs [] (sorted_cons hs).1 rfl hc2.2 rfl
  | (k, v) :: fs, (l, w) :: gs, hs, hsg, hc, hcg => by
    have hc2 : canonB v = true ∧ canonFields fs = true := by
      simpa [canonFields, Bool.and_eq_true] using hc
    have hcg2 : canonB w = true ∧ canonFields gs = true := by
      simpa [canonFields, Bool.and_eq_true] using hcg
    by_cases h1 : keyLt k l = true
    · rw [show diffFields ((k, v) :: fs) ((l, w) :: gs) =
          .remove [k] :: diffFields fs ((l, w) :: gs) from by
        simp [diffFields, h1]]
      have hstep : applyOpT (.obj ((k, v) :: fs)) (.remove [k]) = some (.obj fs) := by
        simp only [applyOpT, removeV]
        rw [if_pos hasField_head, eraseField_head]
      simp only [applyListT, hstep]
      exact roundtripFields fs ((l, w) :: gs) (sorted_cons hs).1 hsg hc2.2 hcg
    · by_cases h2 : k = l
      · subst h2
        rw [show diffFields ((k, v) :: fs) ((k, w) :: gs) =
            (diffV v w).map (prependOp k) ++ diffFields fs gs from by
          simp [diffFields, keyLt_irrefl]]
        have h1s := applyListT_descend_obj (diffV_shape v w) hs
          (roundtripV v w hc2.1 hcg2.1) lookupField_head
        rw [insertField_head_overwrite] at h1s
        rw [applyListT_append _ _ _ _ h1s]
        have hrec := roundtripFields fs gs (sorted_cons hs).1 (sorted_cons hsg).1
          hc2.2 hcg2.2
        have hbound : ∀ op ∈ diffFields fs gs,
            ∃ t q, op.path = t :: q ∧ keyLt k t = true := by
          intro op hop
          obtain ⟨t, q, hpq, hmem⟩ := diffFields_keys fs gs op hop
          refine ⟨t, q, hpq, ?_⟩
          rcases hmem with h | h
          · rcases List.mem_map.mp h with ⟨p, hp, rfl⟩
            exact (sorted_cons hs).2 p hp
          · rcases List.mem_map.mp h with ⟨p, hp, rfl⟩
            exact (sorted_cons hsg).2 p hp
        exact applyListT_consSkip hbound hrec
      · have h3 : keyLt l k = true := by
          by_cases h4 : keyLt l k = true
          · exact h4
          · exact absurd (keyLt_total (Bool.eq_false_iff.mpr h1)
              (Bool.eq_false_iff.mpr h4)) h2
        rw [show diffFields ((k, v) :: fs) ((l, w) :: gs) =
            .add [l] w :: diffFields ((k, v) :: fs) gs from by
          simp [diffFields, h1, h2]]
        have hstep : applyOpT (.obj ((k, v) :: fs)) (.add [l] w) =
            some (.obj ((l, w) :: (k, v) :: fs)) := by
          simp only [applyOpT, addV]
          rw [show insertField ((k, v) :: fs) l w = (l, w) :: (k, v) :: fs from by
            simp [insertField, h3]]
        simp only [applyListT, hstep]
        have hrec := roundtripFields ((k, v) :: fs) gs hs (sorted_cons hsg).1 hc hcg2.2
        have hbound : ∀ op ∈ diffFields ((k, v) :: fs) gs,
            ∃ t q, op.path = t :: q ∧ keyLt l t = true := by
          intro op hop
          obtain ⟨t, q, hpq, hmem⟩ := diffFields_keys ((k, v) :: fs) gs op hop
          refine ⟨t, q, hpq, ?_⟩
          rcases hmem with h | h
          · rcases List.mem_map.mp h with ⟨p, hp, rfl⟩
            rcases List.mem_cons.mp hp with rfl | hp2
            · exact h3
            · exact keyLt_trans h3 ((sorted_cons hs).2 p hp2)
          · rcases List.mem_map.mp h with ⟨p, hp, rfl⟩
            exact (sorted_cons hsg).2 p hp
        exact applyListT_consSkip hbound hrec
termination_by fs gs _ _ _ _ => sizeOf fs + sizeOf gs

/-- Round trip for array element lists: the elements `done` before index
`done.length` are already in their final state. -/
theorem roundtripElems :
    ∀ (xs ys done : List JValue), canonList xs = true → canonList ys = true →
      applyListT (.arr (done ++ xs)) (diffElems done.length xs ys) =
        some (.arr (done ++ ys))
  | [], [], done, _, _ => by simp [diffElems, applyListT]
  | [], y :: ys, done, _, hy => by
    have hy2 : canonB y = true ∧ canonList ys = true := by
      simpa [canonList, Bool.and_eq_true] using hy
    rw [show diffElems done.length [] (y :: ys) =
        .add [natToString done.length] y :: diffElems (done.length + 1) [] ys from by
      simp [diffElems]]
    have hd : addV (.arr (done ++ [])) [natToString done.length] y =
        some (.arr (done ++ [y])) := by
      rw [List.append_nil]
      simp only [addV, if_neg (natToString_ne_dash done.length), parseIndex_natToString]
      rw [if_pos (le_refl _), insertAt_append_length]
    simp only [applyListT, applyOpT, hd]
    have h3 := roundtripElems [] ys (done ++ [y]) rfl hy2.2
    simpa [List.length_append] using h3
  | x :: xs, [], done, hx, _ => by
    have hx2 : canonB x = true ∧ canonList xs = true := by
      simpa [canonList, Bool.and_eq_true] using hx
    rw [show diffElems done.length (x :: xs) [] =
        diffElems (done.length + 1) xs [] ++ [.remove [natToString done.length]] from by
      simp [diffElems]]
    have h3 := roundtripElems xs [] (done ++ [x]) hx2.2 rfl
    have h3s : applyListT (.arr (done ++ x :: xs))
        (diffElems (done.length + 1) xs []) = some (.arr (done ++ [x])) := by
      simpa [List.length_append] using h3
    rw [applyListT_append _ _ _ _ h3s]
    have hr : removeV (.arr (done ++ [x])) [natToString done.length] =
        some (.arr done) := by
      simp only [removeV, parseIndex_natToString]
      rw [if_pos (by simp [List.length_append])]
      rw [show removeAt (done ++ [x]) done.length = done from by
        simpa using removeAt_append done x []]
    simp only [applyListT, applyOpT, hr]
    simp [applyListT]
  | x :: xs, y :: ys, done, hx, hy => by
    have hx2 : canonB x = true ∧ canonList xs = true := by
      simpa [canonList, Bool.and_eq_true] using hx
    have hy2 : canonB y = true ∧ canonList ys = true := by
      simpa [canonList, Bool.and_eq_true] using hy
    rw [show diffElems done.length (x :: xs) (y :: ys) =
        (diffV x y).map (prependOp (natToString done.length)) ++
          diffElems (done.length + 1) xs ys from by
      simp [diffElems]]
    have h1 : applyListT (.arr (done ++ x :: xs))
        ((diffV x y).map (prependOp (natToString done.length))) =
        some (.arr ((done ++ x :: xs).set done.length y)) :=
      applyListT_descend_arr (diffV_shape x y) (roundtripV x y hx2.1 hy2.1)
        (getElem?_append_length done x xs)
    rw [applyListT_append _ _ _ _ h1, set_append_length]
    have h3 := roundtripElems xs ys (done ++ [y]) hx2.2 hy2.2
    simpa [List.length_append] using h3
termination_by xs ys _ _ _ => sizeOf xs + sizeOf ys

end

/-! ## Wire-level operations

`Operation` of `fast-json-patch` as used by `src/lib/patch/json-patch.ts`:
a tagged variant with a JSON-Pointer string `path` (and `from` for
`move`/`copy`), carried on the transport boundary (spec §6). -/

/-- One RFC 6902-style operation. -/
inductive Op : Type
  | add (path : String) (value : JValue)
  | remove (path : String)
  | replace (path : String) (value : JValue)
  | move (path : String) (fromPath : String)
  | copy (path : String) (fromPath : String)
  | test (path : String) (value : JValue)
  deriving DecidableEq

/-- The `op` tag field of an operation. -/
def Op.tag : Op → String
  | .add _ _ => "add"
  | .remove _ => "remove"
  | .replace _ _ => "replace"
  | .move _ _ => "move"
  | .copy _ _ => "copy"
  | .test _ _ => "test"

/-- Encode a diff-emitted token operation on the wire. -/
def encodeOpT : OpT → Op
  | .add p v => .add (encodePath p) v
  | .remove p => .remove (encodePath p)
  | .replace p v => .replace (encodePath p) v

/-- Failure cases of patch application (spec §7 `PatchError`). -/
inductive PatchErr : Type
  | malformedPath
  | targetNotFound
  | testFailed
  | moveIntoOwnDescendant
  deriving DecidableEq

/-- Modelled from the spec: `applyOperation` of `fast-json-patch` (not part of
the repository's sources), per §4.2 step 3: `add`/`remove`/`replace` as the
path-addressed mutations above; `move` as remove-at-`from` then add-at-`path`
of the removed value, rejecting a `path` that is a strict descendant of
`from`; `copy` as add-at-`path` of the value at `from`; `test` as deep,
type-sensitive comparison of the resolved value, failing the whole apply on
mismatch. -/
def applyOperation (doc : JValue) : Op → Except PatchErr JValue
  | .add p v =>
    match parsePointer p with
    | none => .error .malformedPath
    | some toks =>
      match addV doc toks v with
      | some d => .ok d
      | none => .error .targetNotFound
  | .remove p =>
    match parsePointer p with
    | none => .error .malformedPath
    | some toks =>
      match removeV doc toks with
      | some d => .ok d
      | none => .error .targetNotFound
  | .replace p v =>
    match parsePointer p with
    | none => .error .malformedPath
    | some toks =>
      match replaceV doc toks v with
      | some d => .ok d
      | none => .error .targetNotFound
  | .move p f =>
    match parsePointer p, parsePointer f with
    | some pt, some ft =>
      match getV doc ft with
      | none => .error .targetNotFound
      | some v =>
        if ft.isPrefixOf pt ∧ ¬ ft = pt then .error .moveIntoOwnDescendant
        else
          match removeV doc ft with
          | none => .error .targetNotFound
          | some d1 =>
            match addV d1 pt v with
            | some d2 => .ok d2
            | none => .error .targetNotFound
    | _, _ => .error .malformedPath
  | .copy p f =>
    match parsePointer p, parsePointer f with
    | some pt, some ft =>
      match getV doc ft with
      | none => .error .targetNotFound
      | some v =>
        match addV doc pt v with
        | some d2 => .ok d2
        | none => .error .targetNotFound
    | _, _ => .error .malformedPath
  | .test p v =>
    match parsePointer p with
    | none => .error .malformedPath
    | some toks =>
      match getV doc toks with
      | none => .error .targetNotFound
      | some w => if w = v then .ok doc else .error .testFailed

/-! ## The call state of `JsonPatch.apply`

`apply` (src/lib/patch/json-patch.ts lines 115–141) deep-copies `original`
with `structuredClone` and runs `applyPatch(copy, patch, true, true, true)`,
which mutates the copy in place, one operation at a time.  The embedding
makes that mutation explicit state passing over `CallState`: `callerDoc` is
the caller's binding for `original` (a heap value the engine must not touch),
`workDoc` the working copy being mutated. -/

/-- The two documents live during a call to `apply`. -/
structure CallState : Type where
  callerDoc : JValue
  workDoc : JValue
  deriving DecidableEq

/-- One step of `applyPatch`: mutates only the working document; on failure
the work done so far stays in place (mutate-in-place semantics). -/
def stepOp (st : CallState) (op : Op) : CallState × Option PatchErr :=
  match applyOperation st.workDoc op with
  | .ok d => ({ st with workDoc := d }, none)
  | .error e => (st, some e)

/-- Run an operation sequence strictly in order, stopping at the first
failure. -/
def runOps (st : CallState) : List Op → CallState × Option PatchErr
  | [] => (st, none)
  | op :: ops =>
    match applyOperation st.workDoc op with
    | .ok d => runOps { st with workDoc := d } ops
    | .error e => (st, some e)

mutual

/-- Modelled from the spec: the recursive structural copy performed by
`structuredClone` (a JS builtin; spec §9 prescribes an explicit recursive
copy over the value kinds).  In value semantics the copy is the same value
with no sharing. -/
def deepClone : JValue → JValue
  | .null => .null
  | .bool b => .bool b
  | .num n => .num n
  | .str s => .str s
  | .arr xs => .arr (deepCloneList xs)
  | .obj fs => .obj (deepCloneFields fs)

/-- Recursive copy of array elements. -/
def deepCloneList : List JValue → List JValue
  | [] => []
  | x :: xs => deepClone x :: deepCloneList xs

/-- Recursive copy of object fields. -/
def deepCloneFields : List (String × JValue) → List (String × JValue)
  | [] => []
  | (k, v) :: fs => (k, deepClone v) :: deepCloneFields fs

end

mutual

theorem deepClone_eq : ∀ v, deepClone v = v
  | .null => rfl
  | .bool _ => rfl
  | .num _ => rfl
  | .str _ => rfl
  | .arr xs => by rw [deepClone, deepCloneList_eq xs]
  | .obj fs => by rw [deepClone, deepCloneFields_eq fs]

theorem deepCloneList_eq : ∀ xs, deepCloneList xs = xs
  | [] => rfl
  | x :: xs => by rw [deepCloneList, deepClone_eq x, deepCloneList_eq xs]

theorem deepCloneFields_eq : ∀ fs, deepCloneFields fs = fs
  | [] => rfl
  | (k, v) :: fs => by rw [deepCloneFields, deepClone_eq v, deepCloneFields_eq fs]

end

/-! ## The schema capability

Modelled from the spec (§2, §6, §9): an opaque validate-or-reject capability
`validate(value) -> value | ValidationError`, deterministic and
side-effect-free; on failure it reports the failing field/shape.  The
repository instantiates it with `zod` schemas (external). -/

/-- A schema: a decidable acceptance predicate together with the report the
validator attaches to a rejected value (the `ZodError` contents, a function
of the schema and the value alone). -/
structure Schema : Type where
  valid : JValue → Bool
  report : JValue → String

/-- Errors surfaced by the patch engine wrappers (spec §7 taxonomy):
validation failures carry the validator's report; patch failures carry the
`PatchErr`. -/
inductive JsonError : Type
  | validation (info : String)
  | patch (e : PatchErr)
  deriving DecidableEq

namespace JsonPatch

/-- `JsonPatch.diff` (src/lib/patch/json-patch.ts lines 96–103): validate
`original` against the schema, then `updated`, then return the comparison of
the two (the untouched inputs, not normalized values). -/
def diff (s : Schema) (original updated : JValue) : Except JsonError (List Op) :=
  if s.valid original = false then .error (.validation (s.report original))
  else if s.valid updated = false then .error (.validation (s.report updated))
  else .ok ((diffV original updated).map encodeOpT)

/-- `JsonPatch.apply` (src/lib/patch/json-patch.ts lines 115–141) with the
call state visible: validate `original`; work on the deep copy, mutating it
in place operation by operation; fail as soon as an operation fails; validate
the final working copy; return it.  The first component is the state of the
two documents when the call returns. -/
def applyS (s : Schema) (original : JValue) (patch : List Op) :
    CallState × Except JsonError JValue :=
  let st0 : CallState := ⟨original, deepClone original⟩
  if s.valid original = false then (st0, .error (.validation (s.report original)))
  else
    match runOps st0 patch with
    | (st1, some e) => (st1, .error (.patch e))
    | (st1, none) =>
      if s.valid st1.workDoc = false then
        (st1, .error (.validation (s.report st1.workDoc)))
      else (st1, .ok st1.workDoc)

/-- The caller-visible result of `JsonPatch.apply`. -/
def apply (s : Schema) (original : JValue) (patch : List Op) :
    Except JsonError JValue :=
  (applyS s original patch).2

end JsonPatch

/-! ## Patch-syntax validation

`JsonPatch.validatePatch` (src/lib/patch/json-patch.ts lines 151–153) parses
an untrusted decoded value with `ZOperation`, an array of `OperationSchema`
(lines 9–44): a discriminated union on the `op` tag over the six operation
kinds, with `path` (and `from` for move/copy) string-typed; unknown extra
fields are ignored. -/

/-- A syntax failure: the value is not an array, or names the first
ill-formed element. -/
inductive SynErr : Type
  | notArray
  | badOp (i : Nat)
  deriving DecidableEq

/-- Modelled from the spec (§4.3) and the `OperationSchema` declaration: decode
one element as a well-formed operation; `none` on any structural violation. -/
def decodeOp (v : JValue) : Option Op :=
  match v with
  | .obj fs =>
    match lookupField fs "op", lookupField fs "path" with
    | some (.str tag), some (.str p) =>
      if tag = "add" then
        match lookupField fs "value" with
        | some val => some (.add p val)
        | none => none
      else if tag = "remove" then some (.remove p)
      else if tag = "replace" then
        match lookupField fs "value" with
        | some val => some (.replace p val)
        | none => none
      else if tag = "move" then
        match lookupField fs "from" with
        | some (.str f) => some (.move p f)
        | _ => none
      else if tag = "copy" then
        match lookupField fs "from" with
        | some (.str f) => some (.copy p f)
        | _ => none
      else if tag = "test" then
        match lookupField fs "value" with
        | some val => some (.test p val)
        | none => none
      else none
    | _, _ => none
  | _ => none

/-- Decode the elements in order, reporting the index of the first
violation. -/
def decodeOps (i : Nat) : List JValue → Except SynErr (List Op)
  | [] => .ok []
  | x :: xs =>
    match decodeOp x with
    | none => .error (.badOp i)
    | some o =>
      match decodeOps (i + 1) xs with
      | .ok os => .ok (o :: os)
      | .error e => .error e

/-- `JsonPatch.validatePatch`: confirm the value is an ordered sequence of
well-formed operations, returning it decoded, else fail with the first
structural violation. -/
def JsonPatch.validatePatch (v : JValue) : Except SynErr (List Op) :=
  match v with
  | .arr items => decodeOps 0 items
  | _ => .error .notArray

/-- The spec's well-formedness of one operation value (§4.3: correct tag,
required fields present with correct primitive shapes).  Second definition,
following the spec's words, to be compared with the validator. -/
def wellFormedOpB (v : JValue) : Bool :=
  match v with
  | .obj fs =>
    match lookupField fs "op", lookupField fs "path" with
    | some (.str tag), some (.str _) =>
      if tag = "remove" then true
      else if tag = "add" ∨ tag = "replace" ∨ tag = "test" then
        (lookupField fs "value").isSome
      else if tag = "move" ∨ tag = "copy" then
        match lookupField fs "from" with
        | some (.str _) => true
        | _ => false
      else false
    | _, _ => false
  | _ => false

/-- The first structural violation of a decoded value, per the spec's
well-formedness. -/
def firstBadOp : Nat → List JValue → Option SynErr
  | _, [] => none
  | i, x :: xs => if wellFormedOpB x then firstBadOp (i + 1) xs else some (.badOp i)

/-- The first structural violation of an untrusted patch value. -/
def firstViolation (v : JValue) : Option SynErr :=
  match v with
  | .arr items => firstBadOp 0 items
  | _ => some .notArray

/-! ## The synchronized state holder

`SyncState` (src, `SyncState.ts`): a stateful wrapper holding a schema and a
private document `_state`; its methods are embedded as explicit state
passing — each returns the holder after the call together with the returned
value or thrown error. -/

/-- The holder: schema plus the committed document (`_state`). -/
structure SyncState : Type where
  schema : Schema
  stateRef : JValue

/-- The `SyncState` constructor: validates and stores the initial state;
construction fails if the initial state is invalid. -/
def SyncState.create (schema : Schema) (initialState : JValue) :
    Except JsonError SyncState :=
  if schema.valid initialState = false then
    .error (.validation (schema.report initialState))
  else .ok ⟨schema, initialState⟩

/-- The `state` getter: a deep, independent copy of the committed document. -/
def SyncState.state (st : SyncState) : JValue := deepClone st.stateRef

/-- `SyncState.apply` (`applyIncoming`): `this._state = this.jsonPatch.apply(
{original: this._state, patch: operations})` — the committed document is
reassigned only when `apply` returns; a thrown error leaves the assignment
unexecuted. -/
def SyncState.apply (st : SyncState) (operations : List Op) :
    SyncState × Option JsonError :=
  match JsonPatch.apply st.schema st.stateRef operations with
  | .ok d => ({ st with stateRef := d }, none)
  | .error e => (st, some e)

/-- `SyncState.mutateAndDiff`: run the mutator on a deep copy of the current
state, diff the old state against the mutator's result, then commit the
result; a diff failure (validation of either side) propagates before the
commit. -/
def SyncState.mutateAndDiff (st : SyncState) (mutator : JValue → JValue) :
    SyncState × Except JsonError (List Op) :=
  let original := st.stateRef
  let updated := mutator (deepClone st.stateRef)
  match JsonPatch.diff st.schema original updated with
  | .ok operations => ({ st with stateRef := updated }, .ok operations)
  | .error e => (st, .error e)

/-! ## Bridges between wire-level and token-level application -/

theorem applyOperation_encodeOpT (doc : JValue) (o : OpT) :
    applyOperation doc (encodeOpT o) =
      match applyOpT doc o with
      | some d => .ok d
      | none => .error .targetNotFound := by
  cases o <;>
    simp only [encodeOpT, applyOperation, parsePointer_encodePath, applyOpT]

theorem runOps_encoded (opsT : List OpT) :
    ∀ (c w d : JValue), applyListT w opsT = some d →
      runOps ⟨c, w⟩ (opsT.map encodeOpT) = (⟨c, d⟩, none) := by
  induction opsT with
  | nil =>
    intro c w d h
    simp only [applyListT] at h
    cases h
    rfl
  | cons o opsT ih =>
    intro c w d h
    simp only [applyListT] at h
    cases hop : applyOpT w o with
    | none => rw [hop] at h; simp at h
    | some w1 =>
      rw [hop] at h
      simp only [List.map_cons, runOps, applyOperation_encodeOpT, hop]
      exact ih c w1 d h

theorem runOps_callerDoc (ops : List Op) :
    ∀ st : CallState, (runOps st ops).1.callerDoc = st.callerDoc := by
  induction ops with
  | nil => intro st; rfl
  | cons op ops ih =>
    intro st
    simp only [runOps]
    cases h : applyOperation st.workDoc op with
    | ok d => exact ih { st with workDoc := d }
    | error e => rfl

/-- C1 — Round-trip: for every pair of schema-valid documents `original` and
`updated` (canonically represented, and accepted by the schema capability),
`diff(original, updated)` succeeds and `apply(original, that patch)` succeeds
and returns a document deep-equal (here: equal, on canonical representatives)
to `updated`. -/
theorem roundtrip_apply_diff (s : Schema) (original updated : JValue)
    (hco : canonB original = true) (hcu : canonB updated = true)
    (ho : s.valid original = true) (hu : s.valid updated = true) :
    ∃ ops, JsonPatch.diff s original updated = .ok ops ∧
      JsonPatch.apply s original ops = .ok updated := by
  refine ⟨(diffV original updated).map encodeOpT, ?_, ?_⟩
  · simp [JsonPatch.diff, ho, hu]
  · have h := roundtripV original updated hco hcu
    have hr := runOps_encoded (diffV original updated) original original updated h
    simp only [JsonPatch.apply, JsonPatch.applyS, deepClone_eq]
    rw [if_neg (by simp [ho])]
    rw [hr]
    simp [hu]

/-- C1 witness. -/
theorem roundtrip_apply_diff_witness :
    canonB (.obj [("a", .num 1)]) = true ∧
    canonB (.obj [("a", .num 2), ("b", .null)]) = true ∧
    ∃ ops,
      JsonPatch.diff ⟨fun _ => true, fun _ => ""⟩ (.obj [("a", .num 1)])
        (.obj [("a", .num 2), ("b", .null)]) = .ok ops ∧
      JsonPatch.apply ⟨fun _ => true, fun _ => ""⟩ (.obj [("a", .num 1)]) ops =
        .ok (.obj [("a", .num 2), ("b", .null)]) :=
  ⟨by decide, by decide,
    roundtrip_apply_diff ⟨fun _ => true, fun _ => ""⟩ (.obj [("a", .num 1)])
      (.obj [("a", .num 2), ("b", .null)]) (by decide) (by decide) rfl rfl⟩

/-- C2 — Atomic failure of `applyIncoming`: whenever `SyncState.apply` fails
(for any reason: patch error, test failure, or schema validation of the
result), the holder's committed document after the call equals the committed
document before the call. -/
theorem applyIncoming_atomic_failure (st : SyncState) (operations : List Op)
    (e : JsonError) (h : (SyncState.apply st operations).2 = some e) :
    (SyncState.apply st operations).1.stateRef = st.stateRef := by
  unfold SyncState.apply at h ⊢
  cases happ : JsonPatch.apply st.schema st.stateRef operations with
  | ok d => rw [happ] at h; simp at h
  | error e2 => exact rfl

/-- C2 witness: a failing `test` leaves the holder's document unchanged. -/
theorem applyIncoming_atomic_failure_witness :
    (SyncState.apply ⟨⟨fun _ => true, fun _ => ""⟩, .obj [("a", .num 1)]⟩
      [.test "/a" (.num 2)]).2 = some (.patch .testFailed) ∧
    (SyncState.apply ⟨⟨fun _ => true, fun _ => ""⟩, .obj [("a", .num 1)]⟩
      [.test "/a" (.num 2)]).1.stateRef = .obj [("a", .num 1)] :=
  ⟨by decide,
    applyIncoming_atomic_failure ⟨⟨fun _ => true, fun _ => ""⟩, .obj [("a", .num 1)]⟩
      [.test "/a" (.num 2)] (.patch .testFailed) (by decide)⟩

/-- C3 — Non-mutation: whatever the patch and however the call ends, the
caller's `original` document is unchanged after `apply` — the call
deep-copies `original` into the working document and every operation mutates
only that working copy. -/
theorem apply_does_not_mutate_original (s : Schema) (original : JValue)
    (patch : List Op) :
    (JsonPatch.applyS s original patch).1.callerDoc = original := by
  simp only [JsonPatch.applyS]
  by_cases hv : s.valid original = false
  · rw [if_pos hv]
  · rw [if_neg hv]
    have hc := runOps_callerDoc patch ⟨original, deepClone original⟩
    cases hr : runOps ⟨original, deepClone original⟩ patch with
    | mk st1 err =>
      rw [hr] at hc
      cases err with
      | some e => simpa using hc
      | none =>
        by_cases hv2 : s.valid st1.workDoc = false <;> simp only [hv2] <;> simpa using hc

/-- C10 — Atomicity of `mutateAndDiff`: if the internal diff fails (the
pre-mutation state or the mutator's result fails schema validation), the
holder's committed document is unchanged; the mutator's result is committed
only after the diff succeeds. -/
theorem mutateAndDiff_atomic_failure (st : SyncState) (mutator : JValue → JValue)
    (e : JsonError) (h : (SyncState.mutateAndDiff st mutator).2 = .error e) :
    (SyncState.mutateAndDiff st mutator).1.stateRef = st.stateRef := by
  simp only [SyncState.mutateAndDiff] at h ⊢
  cases hd : JsonPatch.diff st.schema st.stateRef (mutator (deepClone st.stateRef)) with
  | ok ops => rw [hd] at h; simp at h
  | error e2 => exact rfl

/-- C10 witness: a mutator returning a schema-invalid value makes the diff
fail and leaves the holder's document unchanged. -/
theorem mutateAndDiff_atomic_failure_witness :
    (SyncState.mutateAndDiff
      ⟨⟨fun v => decide (v = .obj []), fun _ => "not empty"⟩, .obj []⟩
      (fun _ => .null)).2 = .error (.validation "not empty") ∧
    (SyncState.mutateAndDiff
      ⟨⟨fun v => decide (v = .obj []), fun _ => "not empty"⟩, .obj []⟩
      (fun _ => .null)).1.stateRef = .obj [] :=
  ⟨rfl,
    mutateAndDiff_atomic_failure
      ⟨⟨fun v => decide (v = .obj []), fun _ => "not empty"⟩, .obj []⟩
      (fun _ => .null) (.validation "not empty") rfl⟩

/-- C4 counterexample — `"/"` does not address the document root: a `replace`
or `test` at `"/"` targets the member with key `""` (RFC 6901) and fails on a
document without that key, while the same operation at `""` does replace/test
the entire document. -/
theorem root_slash_cex :
    JsonPatch.apply ⟨fun _ => true, fun _ => ""⟩ (.obj [("a", .num 1)])
      [.replace "/" (.num 2)] = .error (.patch .targetNotFound) ∧
    JsonPatch.apply ⟨fun _ => true, fun _ => ""⟩ (.obj [("a", .num 1)])
      [.replace "" (.num 2)] = .ok (.num 2) ∧
    JsonPatch.apply ⟨fun _ => true, fun _ => ""⟩ (.obj [("a", .num 1)])
      [.test "/" (.obj [("a", .num 1)])] = .error (.patch .targetNotFound) ∧
    JsonPatch.apply ⟨fun _ => true, fun _ => ""⟩ (.obj [("a", .num 1)])
      [.test "" (.obj [("a", .num 1)])] = .ok (.obj [("a", .num 1)]) :=
  ⟨rfl, rfl, rfl, rfl⟩

/-- C4 (amended) — Root addressability: the empty-string path `""` targets the
document root, so `replace`/`test` there replace or test the entire document;
the path `"/"` instead denotes the single empty-string reference token (the
member with key `""` at the root), per RFC 6901. -/
theorem root_addressability_amended (doc v : JValue) :
    applyOperation doc (.replace "" v) = .ok v ∧
    applyOperation doc (.test "" doc) = .ok doc ∧
    parsePointer "" = some [] ∧
    parsePointer "/" = some [""] := by
  have hp : parsePointer "" = some [] := rfl
  refine ⟨?_, ?_, rfl, by decide⟩
  · simp only [applyOperation, hp, replaceV]
  · simp [applyOperation, hp, getV]

/-- Evaluation of the diff on the spec's concrete array scenario. -/
theorem diffV_array_scenario :
    diffV (.obj [("foo", .arr [.str "bar", .str "baz"])])
      (.obj [("foo", .arr [.str "bar", .str "qux", .str "baz"])]) =
      [.replace ["foo", "1"] (.str "qux"), .add ["foo", "2"] (.str "baz")] := by
  simp +decide [diffV, diffFields, diffElems, prependOp]

/-- C5 counterexample — the index-wise array diff does not return the
single-insertion patch the spec's scenario claims. -/
theorem diff_array_scenario_cex :
    JsonPatch.diff ⟨fun _ => true, fun _ => ""⟩
      (.obj [("foo", .arr [.str "bar", .str "baz"])])
      (.obj [("foo", .arr [.str "bar", .str "qux", .str "baz"])]) ≠
      .ok [.add "/foo/1" (.str "qux")] := by
  intro h
  rw [show JsonPatch.diff ⟨fun _ => true, fun _ => ""⟩
      (.obj [("foo", .arr [.str "bar", .str "baz"])])
      (.obj [("foo", .arr [.str "bar", .str "qux", .str "baz"])]) =
      .ok ((diffV (.obj [("foo", .arr [.str "bar", .str "baz"])])
        (.obj [("foo", .arr [.str "bar", .str "qux", .str "baz"])])).map encodeOpT)
      from rfl, diffV_array_scenario] at h
  exact absurd (Except.ok.inj h) (by decide)

/-- C5 (amended) — Concrete array-diff scenario: comparing element-by-element
by index, `diff({foo:["bar","baz"]}, {foo:["bar","qux","baz"]})` returns the
two-operation sequence replacing index 1 with `"qux"` and appending `"baz"`
at index 2 (which still transforms the original into the updated document). -/
theorem diff_array_scenario_amended :
    JsonPatch.diff ⟨fun _ => true, fun _ => ""⟩
      (.obj [("foo", .arr [.str "bar", .str "baz"])])
      (.obj [("foo", .arr [.str "bar", .str "qux", .str "baz"])]) =
      .ok [.replace "/foo/1" (.str "qux"), .add "/foo/2" (.str "baz")] := by
  rw [show JsonPatch.diff ⟨fun _ => true, fun _ => ""⟩
      (.obj [("foo", .arr [.str "bar", .str "baz"])])
      (.obj [("foo", .arr [.str "bar", .str "qux", .str "baz"])]) =
      .ok ((diffV (.obj [("foo", .arr [.str "bar", .str "baz"])])
        (.obj [("foo", .arr [.str "bar", .str "qux", .str "baz"])])).map encodeOpT)
      from rfl, diffV_array_scenario]
  rfl

/-- C6 — Move-into-descendant rejection: a `move` whose target path is a
strict descendant of its `from` path, with `from` resolving in the document,
makes `apply` fail with a `PatchError`; no document is produced. -/
theorem move_into_descendant_rejected (s : Schema) (doc : JValue) (p f : String)
    (pt ft : List String) (hp : parsePointer p = some pt) (hf : parsePointer f = some ft)
    (hpre : ft.isPrefixOf pt = true) (hne : ¬ ft = pt)
    (v : JValue) (hfrom : getV doc ft = some v) (hs : s.valid doc = true) :
    JsonPatch.apply s doc [.move p f] = .error (.patch .moveIntoOwnDescendant) := by
  have hop : applyOperation doc (.move p f) = .error .moveIntoOwnDescendant := by
    simp only [applyOperation, hp, hf, hfrom]
    rw [if_pos ⟨hpre, hne⟩]
  simp only [JsonPatch.apply, JsonPatch.applyS, deepClone_eq]
  rw [if_neg (by simp [hs])]
  simp only [runOps, hop]

/-- C6 witness: moving `/a` into its own child `/a/b` is rejected. -/
theorem move_into_descendant_rejected_witness :
    JsonPatch.apply ⟨fun _ => true, fun _ => ""⟩ (.obj [("a", .obj [])])
      [.move "/a/b" "/a"] = .error (.patch .moveIntoOwnDescendant) :=
  move_into_descendant_rejected ⟨fun _ => true, fun _ => ""⟩ (.obj [("a", .obj [])])
    "/a/b" "/a" ["a", "b"] ["a"] (by decide) (by decide) (by decide) (by decide)
    (.obj []) (by decide) rfl

/-- C7 — Diff output vocabulary: every operation returned by a successful
`diff` is tagged `add`, `remove` or `replace`; `move`, `copy` and `test` are
never emitted. -/
theorem diff_emits_only_add_remove_replace (s : Schema) (a b : JValue)
    (ops : List Op) (h : JsonPatch.diff s a b = .ok ops) :
    ∀ op ∈ ops, op.tag = "add" ∨ op.tag = "remove" ∨ op.tag = "replace" := by
  unfold JsonPatch.diff at h
  by_cases h1 : s.valid a = false
  · rw [if_pos h1] at h; simp at h
  · rw [if_neg h1] at h
    by_cases h2 : s.valid b = false
    · rw [if_pos h2] at h; simp at h
    · rw [if_neg h2] at h
      cases Except.ok.inj h
      intro op hop
      rcases List.mem_map.mp hop with ⟨o, _, rfl⟩
      cases o with
      | add p v => exact Or.inl rfl
      | remove p => exact Or.inr (Or.inl rfl)
      | replace p v => exact Or.inr (Or.inr rfl)

/-- C7 witness: a concrete successful diff, with the vocabulary fact
instantiated on its output. -/
theorem diff_emits_only_add_remove_replace_witness :
    JsonPatch.diff ⟨fun _ => true, fun _ => ""⟩ (.obj [])
      (.obj [("x", .num 1)]) = .ok [.add "/x" (.num 1)] ∧
    ∀ op ∈ [Op.add "/x" (.num 1)],
      op.tag = "add" ∨ op.tag = "remove" ∨ op.tag = "replace" := by
  have hd : diffV (.obj []) (.obj [("x", .num 1)]) = [.add ["x"] (.num 1)] := by
    simp [diffV, diffFields]
  have h : JsonPatch.diff ⟨fun _ => true, fun _ => ""⟩ (.obj [])
      (.obj [("x", .num 1)]) = .ok [.add "/x" (.num 1)] := by
    rw [show JsonPatch.diff ⟨fun _ => true, fun _ => ""⟩ (.obj [])
        (.obj [("x", .num 1)]) =
        .ok ((diffV (.obj []) (.obj [("x", .num 1)])).map encodeOpT) from rfl, hd]
    rfl
  exact ⟨h, diff_emits_only_add_remove_replace _ _ _ _ h⟩

/-- C8 counterexample — the `ValidationError` thrown by `diff` does not name
which argument failed: an invalid value yields the same error whether it was
passed as `original` or as `updated`, so the error cannot identify the
argument. -/
theorem diff_validation_no_argument_cex :
    JsonPatch.diff ⟨fun v => decide (v = .num 0), fun _ => "expected 0"⟩
      (.num 1) (.num 0) =
      JsonPatch.diff ⟨fun v => decide (v = .num 0), fun _ => "expected 0"⟩
        (.num 0) (.num 1) ∧
    JsonPatch.diff ⟨fun v => decide (v = .num 0), fun _ => "expected 0"⟩
      (.num 1) (.num 0) = .error (.validation "expected 0") :=
  ⟨rfl, rfl⟩

/-- C8 (amended) — Diff precondition checking: if either argument fails
schema validation, `diff` fails with the validator's `ValidationError` before
any comparison occurs (no operation sequence is produced); `original` is
checked first, and the error carries what the validator reports for the
failing value — but it does not name which argument failed. -/
theorem diff_validation_checked_first (s : Schema) (a b : JValue) :
    (s.valid a = false → JsonPatch.diff s a b = .error (.validation (s.report a))) ∧
    (s.valid a = true → s.valid b = false →
      JsonPatch.diff s a b = .error (.validation (s.report b))) := by
  constructor
  · intro h
    simp [JsonPatch.diff, h]
  · intro h1 h2
    simp [JsonPatch.diff, h1, h2]

/-- C8 witness. -/
theorem diff_validation_checked_first_witness :
    JsonPatch.diff ⟨fun v => decide (v = .num 0), fun _ => "expected 0"⟩
      (.num 1) (.num 0) = .error (.validation "expected 0") :=
  (diff_validation_checked_first
    ⟨fun v => decide (v = .num 0), fun _ => "expected 0"⟩ (.num 1) (.num 0)).1 rfl

/-- The spec's well-formedness of a whole decoded patch value: an ordered
list of well-formed operations. -/
def isWellFormedPatchB (v : JValue) : Bool :=
  match v with
  | .arr items => items.all wellFormedOpB
  | _ => false

theorem decodeOp_isSome_eq_wellFormed (x : JValue) :
    (decodeOp x).isSome = wellFormedOpB x := by
  cases x with
  | null => rfl
  | bool b => rfl
  | num n => rfl
  | str s => rfl
  | arr xs => rfl
  | obj fs =>
    simp only [decodeOp, wellFormedOpB]
    cases hop : lookupField fs "op" with
    | none => rfl
    | some tv =>
      cases tv with
      | null => rfl
      | bool b => rfl
      | num n => rfl
      | arr a => rfl
      | obj o => rfl
      | str tag =>
        cases hpath : lookupField fs "path" with
        | none => rfl
        | some pv =>
          cases pv with
          | null => rfl
          | bool b => rfl
          | num n => rfl
          | arr a => rfl
          | obj o => rfl
          | str p =>
            by_cases t1 : tag = "add"
            · subst t1
              cases hval : lookupField fs "value" <;> simp +decide [hval]
            by_cases t2 : tag = "remove"
            · subst t2
              simp +decide
            by_cases t3 : tag = "replace"
            · subst t3
              cases hval : lookupField fs "value" <;> simp +decide [hval]
            by_cases t4 : tag = "move"
            · subst t4
              cases hfrom : lookupField fs "from" with
              | none => simp +decide [hfrom]
              | some fv => cases fv <;> simp +decide [hfrom]
            by_cases t5 : tag = "copy"
            · subst t5
              cases hfrom : lookupField fs "from" with
              | none => simp +decide [hfrom]
              | some fv => cases fv <;> simp +decide [hfrom]
            by_cases t6 : tag = "test"
            · subst t6
              cases hval : lookupField fs "value" <;> simp +decide [hval]
            · simp [t1, t2, t3, t4, t5, t6]

theorem decodeOps_ok :
    ∀ (items : List JValue) (i : Nat) (ops : List Op), decodeOps i items = .ok ops →
      items.all wellFormedOpB = true ∧ items.map decodeOp = ops.map some ∧
      firstBadOp i items = none := by
  intro items
  induction items with
  | nil =>
    intro i ops h
    simp only [decodeOps] at h
    cases h
    exact ⟨rfl, rfl, rfl⟩
  | cons x xs ih =>
    intro i ops h
    simp only [decodeOps] at h
    cases hd : decodeOp x with
    | none => rw [hd] at h; simp at h
    | some o =>
      rw [hd] at h
      cases hr : decodeOps (i + 1) xs with
      | error e => rw [hr] at h; simp at h
      | ok os =>
        rw [hr] at h
        cases h
        obtain ⟨h1, h2, h3⟩ := ih (i + 1) os hr
        have hwf : wellFormedOpB x = true := by
          rw [← decodeOp_isSome_eq_wellFormed, hd]
          rfl
        exact ⟨by simp [h1, hwf], by simp [hd, h2], by simp [firstBadOp, hwf, h3]⟩

theorem decodeOps_error :
    ∀ (items : List JValue) (i : Nat) (e : SynErr), decodeOps i items = .error e →
      items.all wellFormedOpB = false ∧ firstBadOp i items = some e := by
  intro items
  induction items with
  | nil =>
    intro i e h
    simp [decodeOps] at h
  | cons x xs ih =>
    intro i e h
    simp only [decodeOps] at h
    cases hd : decodeOp x with
    | none =>
      rw [hd] at h
      cases h
      have hwf : wellFormedOpB x = false := by
        rw [← decodeOp_isSome_eq_wellFormed, hd]
        rfl
      exact ⟨by simp [hwf], by simp [firstBadOp, hwf]⟩
    | some o =>
      rw [hd] at h
      cases hr : decodeOps (i + 1) xs with
      | ok os => rw [hr] at h; simp at h
      | error e2 =>
        rw [hr] at h
        have he : e2 = e := Except.error.inj h
        subst he
        obtain ⟨h1, h2⟩ := ih (i + 1) e2 hr
        have hwf : wellFormedOpB x = true := by
          rw [← decodeOp_isSome_eq_wellFormed, hd]
          rfl
        exact ⟨by simp [h1], by simp [firstBadOp, hwf, h2]⟩

theorem decodeOps_exists_ok :
    ∀ (items : List JValue) (i : Nat), items.all wellFormedOpB = true →
      ∃ ops, decodeOps i items = .ok ops := by
  intro items
  induction items with
  | nil => intro i _; exact ⟨[], rfl⟩
  | cons x xs ih =>
    intro i hall
    have h2 : wellFormedOpB x = true ∧ xs.all wellFormedOpB = true := by
      simpa [Bool.and_eq_true] using hall
    have hsome : (decodeOp x).isSome = true := by
      rw [decodeOp_isSome_eq_wellFormed]
      exact h2.1
    cases hd : decodeOp x with
    | none => rw [hd] at hsome; simp at hsome
    | some o =>
      obtain ⟨os, hos⟩ := ih (i + 1) h2.2
      exact ⟨o :: os, by simp [decodeOps, hd, hos]⟩

/-- C9 — Patch-syntax validation: `validatePatch` succeeds exactly on values
that are ordered lists of well-formed operations (correct tag, `path` — and
`from` for move/copy — string-typed, the kind's required fields present,
extra fields ignored); on success it returns the operations decoded in
order, and on failure it reports the first structural violation. -/
theorem validatePatch_iff_wellFormed (v : JValue) :
    ((∃ ops, JsonPatch.validatePatch v = .ok ops) ↔ isWellFormedPatchB v = true) ∧
    (∀ e, JsonPatch.validatePatch v = .error e → firstViolation v = some e) ∧
    (∀ items ops, v = .arr items → JsonPatch.validatePatch v = .ok ops →
      items.map decodeOp = ops.map some) := by
  cases v with
  | arr items =>
    refine ⟨⟨?_, ?_⟩, ?_, ?_⟩
    · rintro ⟨ops, h⟩
      have := (decodeOps_ok items 0 ops h).1
      simpa [isWellFormedPatchB] using this
    · intro h
      obtain ⟨ops, hos⟩ := decodeOps_exists_ok items 0 (by simpa [isWellFormedPatchB] using h)
      exact ⟨ops, hos⟩
    · intro e h
      have := (decodeOps_error items 0 e h).2
      simpa [firstViolation] using this
    · intro items2 ops he h
      cases he
      exact (decodeOps_ok _ 0 ops h).2.1
  | null =>
    exact ⟨⟨fun ⟨_, h⟩ => by simp [JsonPatch.validatePatch] at h, fun h => by
      simp [isWellFormedPatchB] at h⟩,
      fun e h => by
        simp only [JsonPatch.validatePatch] at h
        cases h
        rfl,
      fun items ops he _ => by cases he⟩
  | bool b =>
    exact ⟨⟨fun ⟨_, h⟩ => by simp [JsonPatch.validatePatch] at h, fun h => by
      simp [isWellFormedPatchB] at h⟩,
      fun e h => by
        simp only [JsonPatch.validatePatch] at h
        cases h
        rfl,
      fun items ops he _ => by cases he⟩
  | num n =>
    exact ⟨⟨fun ⟨_, h⟩ => by simp [JsonPatch.validatePatch] at h, fun h => by
      simp [isWellFormedPatchB] at h⟩,
      fun e h => by
        simp only [JsonPatch.validatePatch] at h
        cases h
        rfl,
      fun items ops he _ => by cases he⟩
  | str s =>
    exact ⟨⟨fun ⟨_, h⟩ => by simp [JsonPatch.validatePatch] at h, fun h => by
      simp [isWellFormedPatchB] at h⟩,
      fun e h => by
        simp only [JsonPatch.validatePatch] at h
        cases h
        rfl,
      fun items ops he _ => by cases he⟩
  | obj fs =>
    exact ⟨⟨fun ⟨_, h⟩ => by simp [JsonPatch.validatePatch] at h, fun h => by
      simp [isWellFormedPatchB] at h⟩,
      fun e h => by
        simp only [JsonPatch.validatePatch] at h
        cases h
        rfl,
      fun items ops he _ => by cases he⟩

/-- C9 witness: an `add` without its required `value` field is rejected as
the first violation, at index 0. -/
theorem validatePatch_iff_wellFormed_witness :
    JsonPatch.validatePatch (.arr [.obj [("op", .str "add"), ("path", .str "/x")]]) =
      .error (.badOp 0) ∧
    firstViolation (.arr [.obj [("op", .str "add"), ("path", .str "/x")]]) =
      some (.badOp 0) :=
  ⟨rfl, (validatePatch_iff_wellFormed _).2.1 _ rfl⟩
